import Mathlib

/-!
Verification development for the nydus RAFS bootstrap merger
(`src/rafs/src/builder/merge.rs`) and the blob cache read path
(`src/storage/src/cache/dummycache.rs`, `src/storage/src/cache/mod.rs`).

The Rust code is shallowly embedded: loaded bootstraps (`RafsSuper`) are
modelled as plain records, `HashMap<String, usize>` as an association list
with front-insertion (insert overwrites for lookup purposes), machine
integers as `Nat` (the only overflow the merger guards, `u16`, is checked
explicitly against 65535 exactly as the source does), and fallible Rust
functions return `Except`.
-/

namespace Nydus

/-- A 32-byte digest, modelled as a list of byte values. -/
abbrev Digest := List Nat

/-- Hex value of one character, as in the `hex` crate's decoder: digits,
lowercase and uppercase letters by their code points. -/
def hexDigitVal (c : Char) : Option Nat :=
  let n := c.toNat
  if 48 ≤ n ∧ n ≤ 57 then some (n - 48)
  else if 97 ≤ n ∧ n ≤ 102 then some (n - 87)
  else if 65 ≤ n ∧ n ≤ 70 then some (n - 55)
  else none

/-- Decode pairs of hex characters into bytes; fails on an odd count or a
non-hex character, as `hex::FromHex` does. -/
def fromHexBytes : List Char → Option (List Nat)
  | [] => some []
  | [_] => none
  | hi :: lo :: rest =>
    match hexDigitVal hi, hexDigitVal lo, fromHexBytes rest with
    | some h, some l, some r => some ((h * 16 + l) :: r)
    | _, _, _ => none

/-- `<[u8; 32]>::from_hex`: succeeds only on exactly 64 hex characters.
In particular the empty string is rejected. -/
def fromHex32 (s : String) : Option Digest :=
  match fromHexBytes s.data with
  | some bs => if bs.length = 32 then some bs else none
  | none => none

/-- One lowercase hex character for a nibble, as `hex::encode` produces. -/
def hexChar (n : Nat) : Char :=
  if n < 10 then Char.ofNat (48 + n) else Char.ofNat (87 + n)

/-- Byte list to lowercase hex characters. -/
def hexEncodeChars : List Nat → List Char
  | [] => []
  | b :: rest => hexChar (b / 16) :: hexChar (b % 16) :: hexEncodeChars rest

/-- `hex::encode` over a digest. -/
def hexEncode (d : Digest) : String :=
  String.mk (hexEncodeChars d)

/-! ## Data model shared by the merger and the cache -/

/-- The overlay classification of a node (`Overlay` enum). -/
inductive Overlay
  | lower
  | upperAddition
  | upperModification
  | upperRemoval
deriving DecidableEq, Repr

/-- One chunk reference held by a node (`node.chunks[k]`): the merger only
reads and rewrites its `blob_index`. -/
structure ChunkRef where
  blob_index : Nat
deriving DecidableEq, Repr

/-- A filesystem node of one layer's tree.  `path` identifies the node for
the overlay rules; `whiteout` marks an overlayfs whiteout entry. -/
structure Node where
  path : List String
  whiteout : Bool
  chunks : List ChunkRef
  layer_idx : Nat
  overlay : Overlay
deriving DecidableEq, Repr

/-- A layer tree, flattened to its node list (BFS order). -/
structure Tree where
  nodes : List Node
deriving DecidableEq, Repr

/-- The `BlobInfo` fields the merger consults from a loaded bootstrap. -/
structure BlobDesc where
  blob_id : String
  chunk_size : Nat
  /-- `BlobFeatures::SEPARATE`. -/
  separate : Bool
  blob_meta_digest : Digest
  blob_meta_size : Nat
  blob_toc_digest : Digest
  blob_toc_size : Nat
  compressed_size : Nat
deriving DecidableEq, Repr

/-- The fields of `rs.meta.get_config()` that `merge` consults. -/
structure MetaConfig where
  compressor : Nat
  digester : Nat
  explicit_uidgid : Bool
  is_tarfs_mode : Bool
deriving DecidableEq, Repr

/-- RAFS metadata version (`RafsVersion`). -/
inductive RafsVersion
  | v5
  | v6
deriving DecidableEq, Repr

/-- A loaded bootstrap (`RafsSuper` plus the tree materialized from it). -/
structure RafsSuperM where
  blobs : List BlobDesc
  tree : Tree
  meta : MetaConfig
  version : RafsVersion
deriving DecidableEq, Repr

/-- One entry of `sources`: its loaded bootstrap together with
`BlobInfo::get_blob_id_from_meta_path(bootstrap_path)`, the blob id derived
from the bootstrap path (an external helper, kept abstract as data). -/
structure SourceM where
  rs : RafsSuperM
  path_blob_id : String
deriving DecidableEq, Repr

/-- Modelled from the spec: `BlobContext` (builder core, not under `src/`)
carries a `BlobInfo`'s metadata into a mutable per-blob context; `merge`
mutates `blob_id`, `blob_meta_digest`, `blob_meta_size`, `blob_toc_digest`,
`blob_toc_size` and `compressed_blob_size` on it. -/
structure BlobContextM where
  blob_id : String
  chunk_size : Nat
  separate : Bool
  blob_meta_digest : Digest
  blob_meta_size : Nat
  blob_toc_digest : Digest
  blob_toc_size : Nat
  compressed_blob_size : Nat
deriving DecidableEq, Repr

/-- Modelled from the spec: `BlobContext::from(ctx, blob, ChunkSource::Parent)`
copies the blob's fields into a fresh blob context. -/
def blobCtxFrom (b : BlobDesc) : BlobContextM :=
  { blob_id := b.blob_id
    chunk_size := b.chunk_size
    separate := b.separate
    blob_meta_digest := b.blob_meta_digest
    blob_meta_size := b.blob_meta_size
    blob_toc_digest := b.blob_toc_digest
    blob_toc_size := b.blob_toc_size
    compressed_blob_size := b.compressed_size }

/-- The `BuildContext` fields `merge` consults. -/
structure BuildContextM where
  /-- `ctx.configuration.internal.blob_accessible()`. -/
  blob_accessible : Bool
  /-- whether `ctx.conversion_type == ConversionType::TarToTarfs` on entry. -/
  tarfs_conversion : Bool
  chunk_size : Nat
deriving DecidableEq, Repr

/-- Error cases of `Merger::merge`.  Each constructor corresponds to one
`bail!`/`ensure!`/`?` site in `merge.rs`. -/
inductive MergeError
  | emptySources
  | digestArity
  | sizeArity
  | tocDigestArity
  | tocSizeArity
  | incompatible
  | chunkSizeMismatch
  | blobConstraint
  | hexDecode
  | digestIndex
  | sizeIndex
  | tooManyLayers
  | tarfsParent
  | tarfsDict
  /-- `blobs[origin_blob_index]` out of bounds: an index panic in the Rust
  source, modelled as an error. -/
  | chunkIndexPanic
deriving DecidableEq, Repr

/-! ## blob_idx_map: `HashMap<String, usize>` as an association list -/

/-- `HashMap<String, usize>` keyed by blob id.  Insertion front-conses, so
a later insert of the same key shadows the earlier one for `mapLookup`. -/
abbrev BlobIdxMap := List (String × Nat)

/-- `HashMap::get`. -/
def mapLookup : BlobIdxMap → String → Option Nat
  | [], _ => none
  | (k, v) :: rest, key => if k = key then some v else mapLookup rest key

/-! ## Merger helper functions -/

/-- `Merger::get_digest_from_list`. -/
def getDigestFromList (digests : Option (List String)) (idx : Nat) :
    Except MergeError (Option Digest) :=
  match digests with
  | none => .ok none
  | some ds =>
    match ds[idx]? with
    | none => .error .digestIndex
    | some s =>
      match fromHex32 s with
      | none => .error .hexDecode
      | some d => .ok (some d)

/-- `Merger::get_size_from_list`. -/
def getSizeFromList (sizes : Option (List Nat)) (idx : Nat) :
    Except MergeError (Option Nat) :=
  match sizes with
  | none => .ok none
  | some szs =>
    match szs[idx]? with
    | none => .error .sizeIndex
    | some s => .ok (some s)

/-- Membership of a blob id in the chunk-dictionary id set
(`HashSet<String>::contains`). -/
def idMem : List String → String → Bool
  | [], _ => false
  | s :: rest, key => if s = key then true else idMem rest key

/-- Lines 162-172 of `merge.rs`: adopt or check the accumulated chunk size. -/
def chunkCheck (acc : Option Nat) (sz : Nat) : Except MergeError (Option Nat) :=
  match acc with
  | some c => if c = sz then .ok (some c) else .error .chunkSizeMismatch
  | none => .ok (some sz)

/-- Lines 182-212 of `merge.rs`: resolve the canonical blob id of a layer's
new data blob and apply the external override arrays to the blob context. -/
def applyIdAndOverrides (b : BlobDesc) (blob_accessible tarfs : Bool)
    (path_id : String) (od : Option Digest) (osz : Option Nat)
    (otd : Option Digest) (otsz : Option Nat) : BlobContextM :=
  let c := blobCtxFrom b
  let c := { c with blob_id := if blob_accessible || tarfs then b.blob_id else path_id }
  let c :=
    match od with
    | some d =>
      if b.separate then { c with blob_meta_digest := d }
      else { c with blob_id := hexEncode d }
    | none => c
  let c :=
    match osz with
    | some s =>
      if b.separate then { c with blob_meta_size := s }
      else { c with compressed_blob_size := s }
    | none => c
  let c := match otd with | some d => { c with blob_toc_digest := d } | none => c
  match otsz with | some s => { c with blob_toc_size := s } | none => c

/-- Lines 215-218 of `merge.rs`: if `blob.blob_id()` (the original id, the
map key) is vacant, record the position `blob_mgr.len()` and append the
blob context to the blob manager. -/
def addIfVacant (table : List BlobContextM) (map : BlobIdxMap) (key : String)
    (c : BlobContextM) : List BlobContextM × BlobIdxMap :=
  match mapLookup map key with
  | some _ => (table, map)
  | none => (table ++ [c], (key, table.length) :: map)

/-- State threaded through a layer's blob loop (lines 158-219). -/
structure LayerBlobState where
  table : List BlobContextM
  map : BlobIdxMap
  csz : Option Nat
  /-- `parent_blob_added`. -/
  added : Bool
deriving DecidableEq, Repr

/-- Body of the per-blob loop of `merge` (lines 160-219) for one blob. -/
def processBlob (ctx : BuildContextM) (dict : List String)
    (bd : Option (List String)) (bs : Option (List Nat))
    (btd : Option (List String)) (bts : Option (List Nat))
    (layer_idx : Nat) (path_id : String) (tarfs : Bool)
    (st : LayerBlobState) (b : BlobDesc) : Except MergeError LayerBlobState :=
  match chunkCheck st.csz b.chunk_size with
  | .error e => .error e
  | .ok csz =>
    if idMem dict b.blob_id then
      -- a chunk-dictionary blob: the blob context is inserted unmodified
      let tm := addIfVacant st.table st.map b.blob_id (blobCtxFrom b)
      .ok { table := tm.1, map := tm.2, csz := csz, added := st.added }
    else if st.added then
      .error .blobConstraint
    else
      match getDigestFromList bd layer_idx with
      | .error e => .error e
      | .ok od =>
        match getSizeFromList bs layer_idx with
        | .error e => .error e
        | .ok osz =>
          match getDigestFromList btd layer_idx with
          | .error e => .error e
          | .ok otd =>
            match getSizeFromList bts layer_idx with
            | .error e => .error e
            | .ok otsz =>
              let c := applyIdAndOverrides b ctx.blob_accessible tarfs path_id
                od osz otd otsz
              let tm := addIfVacant st.table st.map b.blob_id c
              .ok { table := tm.1, map := tm.2, csz := csz, added := true }

/-- The blob loop of one layer. -/
def processBlobs (ctx : BuildContextM) (dict : List String)
    (bd : Option (List String)) (bs : Option (List Nat))
    (btd : Option (List String)) (bts : Option (List Nat))
    (layer_idx : Nat) (path_id : String) (tarfs : Bool) :
    LayerBlobState → List BlobDesc → Except MergeError LayerBlobState
  | st, [] => .ok st
  | st, b :: rest =>
    match processBlob ctx dict bd bs btd bts layer_idx path_id tarfs st b with
    | .error e => .error e
    | .ok st' => processBlobs ctx dict bd bs btd bts layer_idx path_id tarfs st' rest

/-- Lines 224-231 of `merge.rs`: rewrite one chunk's blob index through
`blob_idx_map`, keyed by the original id `blobs[origin].blob_id()`. -/
def rewriteChunk (blobs : List BlobDesc) (map : BlobIdxMap) (c : ChunkRef) :
    Except MergeError ChunkRef :=
  match blobs[c.blob_index]? with
  | none => .error .chunkIndexPanic
  | some sb =>
    match mapLookup map sb.blob_id with
    | some i => .ok ⟨i⟩
    | none => .ok c

/-- All chunks of one node. -/
def rewriteChunks (blobs : List BlobDesc) (map : BlobIdxMap) :
    List ChunkRef → Except MergeError (List ChunkRef)
  | [] => .ok []
  | c :: rest =>
    match rewriteChunk blobs map c with
    | .error e => .error e
    | .ok c' =>
      match rewriteChunks blobs map rest with
      | .error e => .error e
      | .ok rest' => .ok (c' :: rest')

/-- Lines 222-245 of `merge.rs`: the `walk_bfs` visitor applied to one node:
rewrite its chunks, check the `u16` bounds, stamp `layer_idx` and mark the
node `UpperAddition`. -/
def walkNode (parent_layers layer_idx : Nat) (blobs : List BlobDesc)
    (map : BlobIdxMap) (n : Node) : Except MergeError Node :=
  match rewriteChunks blobs map n.chunks with
  | .error e => .error e
  | .ok cs =>
    if 65535 < layer_idx then .error .tooManyLayers
    else if 65535 < parent_layers + layer_idx then .error .tooManyLayers
    else .ok { n with chunks := cs
                      layer_idx := layer_idx + parent_layers
                      overlay := .upperAddition }

/-- The whole BFS walk over a layer tree's nodes. -/
def walkNodes (parent_layers layer_idx : Nat) (blobs : List BlobDesc)
    (map : BlobIdxMap) : List Node → Except MergeError (List Node)
  | [] => .ok []
  | n :: rest =>
    match walkNode parent_layers layer_idx blobs map n with
    | .error e => .error e
    | .ok n' =>
      match walkNodes parent_layers layer_idx blobs map rest with
      | .error e => .error e
      | .ok rest' => .ok (n' :: rest')

/-- Is the first path an ancestor of (or equal to) the second? -/
def pathBelow : List String → List String → Bool
  | [], _ => true
  | _ :: _, [] => false
  | a :: ra, b :: rb => if a = b then pathBelow ra rb else false

/-- Is the lower node shadowed (replaced or deleted) by the upper tree? -/
def shadowedBy (upperNodes : List Node) (l : Node) : Bool :=
  upperNodes.any fun u =>
    decide (u.path = l.path) || (u.whiteout && pathBelow u.path l.path)

/-- Modelled from the spec: `Tree::merge_overaly` (builder core, not under
`src/`), the overlay rules of §4.G over the flattened node lists: every
non-whiteout upper node is taken; a lower node survives unless an upper
node sits at its path or a whiteout covers it.  Opaque-directory child
replacement is folded into path shadowing. -/
def mergeOveraly (lower upper : Tree) : Tree :=
  ⟨upper.nodes.filter (fun u => !u.whiteout) ++
    lower.nodes.filter (fun l => !shadowedBy upper.nodes l)⟩

/-- Accumulator state of the merge across layers. -/
structure MergeState where
  tree : Option Tree
  table : List BlobContextM
  map : BlobIdxMap
  csz : Option Nat
  cfg : Option MetaConfig
  /-- `ctx.conversion_type == ConversionType::TarToTarfs`. -/
  tarfs : Bool
  fsv : RafsVersion
deriving DecidableEq, Repr

/-- Modelled from the spec: `RafsSuperConfig::check_compatibility` (rafs
metadata, not under `src/`) — "require compatibility (same compressor,
digester, uid/gid discipline)". -/
def compatibleCfg (a b : MetaConfig) : Bool :=
  decide (a.compressor = b.compressor) && decide (a.digester = b.digester) &&
    decide (a.explicit_uidgid = b.explicit_uidgid)

/-- Lines 142-252 of `merge.rs`: process one source layer. -/
def processLayer (ctx : BuildContextM) (dict : List String)
    (bd : Option (List String)) (bs : Option (List Nat))
    (btd : Option (List String)) (bts : Option (List Nat))
    (parent_layers layer_idx : Nat) (st : MergeState) (src : SourceM) :
    Except MergeError MergeState :=
  let cfg := st.cfg.getD src.rs.meta
  if !compatibleCfg cfg src.rs.meta then .error .incompatible
  else
    let tarfs := st.tarfs || cfg.is_tarfs_mode
    match processBlobs ctx dict bd bs btd bts layer_idx src.path_blob_id tarfs
        { table := st.table, map := st.map, csz := st.csz, added := false }
        src.rs.blobs with
    | .error e => .error e
    | .ok bst =>
      match walkNodes parent_layers layer_idx src.rs.blobs bst.map
          src.rs.tree.nodes with
      | .error e => .error e
      | .ok ns =>
        let upper : Tree := ⟨ns⟩
        let tree :=
          match st.tree with
          | some t => some (mergeOveraly t upper)
          | none => some upper
        .ok { tree := tree, table := bst.table, map := bst.map, csz := bst.csz
              cfg := some cfg, tarfs := tarfs, fsv := src.rs.version }

/-- The `for (layer_idx, bootstrap_path) in sources.iter().enumerate()` loop. -/
def mergeLayers (ctx : BuildContextM) (dict : List String)
    (bd : Option (List String)) (bs : Option (List Nat))
    (btd : Option (List String)) (bts : Option (List Nat))
    (parent_layers : Nat) :
    Nat → MergeState → List SourceM → Except MergeError MergeState
  | _, st, [] => .ok st
  | i, st, s :: rest =>
    match processLayer ctx dict bd bs btd bts parent_layers i st s with
    | .error e => .error e
    | .ok st' => mergeLayers ctx dict bd bs btd bts parent_layers (i + 1) st' rest

/-- Lines 117-123 of `merge.rs`: ingest the parent bootstrap's blobs,
recording each position and appending every blob context. -/
def parentIngest : List BlobDesc → BlobIdxMap × List BlobContextM →
    BlobIdxMap × List BlobContextM
  | [], acc => acc
  | b :: rest, (map, table) =>
    parentIngest rest ((b.blob_id, table.length) :: map, table ++ [blobCtxFrom b])

/-- The parent's blob list. -/
def parentBlobs (parent : Option RafsSuperM) : List BlobDesc :=
  match parent with
  | some p => p.blobs
  | none => []

/-- The parent's tree nodes (empty when no parent bootstrap is given). -/
def parentNodes (parent : Option RafsSuperM) : List Node :=
  match parent with
  | some p => p.tree.nodes
  | none => []

/-- The chunk-dictionary blob id set (lines 127-137). -/
def dictIds (chunk_dict : Option RafsSuperM) : List String :=
  match chunk_dict with
  | some d => d.blobs.map (fun b => b.blob_id)
  | none => []

/-- Arity check of one optional parallel array (lines 74-105). -/
def arityOk {α : Type} (l : Option (List α)) (n : Nat) : Bool :=
  match l with
  | none => true
  | some xs => decide (xs.length = n)

/-- The data `BuildOutput`/the dumped bootstrap expose: the final blob
table, the merged tree and the final `ctx.chunk_size`. -/
structure MergeOutput where
  blobTable : List BlobContextM
  tree : Tree
  chunk_size : Nat
  fsv : RafsVersion
deriving DecidableEq, Repr

/-- Lines 263-278 of `merge.rs`: unwrap the accumulator tree and finalize.
`tree` is `some` whenever at least one source was processed; the `none`
branch is unreachable and mapped to an error. -/
def finalizeMerge (ctx : BuildContextM) (st : MergeState) :
    Except MergeError MergeOutput :=
  match st.tree with
  | none => .error .emptySources
  | some t =>
    .ok { blobTable := st.table
          tree := t
          chunk_size := st.csz.getD ctx.chunk_size
          fsv := st.fsv }

/-- `Merger::merge`, over already-loaded bootstraps (`RafsSuper::load_from_file`
is external; its failures are out of scope, a loaded bootstrap is data). -/
def mergeM (ctx : BuildContextM) (parent : Option RafsSuperM)
    (sources : List SourceM) (bd : Option (List String))
    (bs : Option (List Nat)) (btd : Option (List String))
    (bts : Option (List Nat)) (chunk_dict : Option RafsSuperM) :
    Except MergeError MergeOutput :=
  if sources.isEmpty then .error .emptySources
  else if !arityOk bd sources.length then .error .digestArity
  else if !arityOk bs sources.length then .error .sizeArity
  else if !arityOk btd sources.length then .error .tocDigestArity
  else if !arityOk bts sources.length then .error .tocSizeArity
  else
    let pblobs := parentBlobs parent
    let pt := parentIngest pblobs ([], [])
    let parent_layers := pblobs.length
    let tree0 : Option Tree := parent.map (fun p => p.tree)
    let dict := dictIds chunk_dict
    let cfg0 := chunk_dict.map (fun d => d.meta)
    let st0 : MergeState :=
      { tree := tree0, table := pt.2, map := pt.1, csz := none, cfg := cfg0
        tarfs := ctx.tarfs_conversion, fsv := .v6 }
    match mergeLayers ctx dict bd bs btd bts parent_layers 0 st0 sources with
    | .error e => .error e
    | .ok st =>
      if st.tarfs then
        if 0 < parent_layers then .error .tarfsParent
        else if !(dict.isEmpty) then .error .tarfsDict
        else finalizeMerge ctx st
      else finalizeMerge ctx st

/-- All blobs referenced by the source layers, in processing order. -/
def allLayerBlobs : List SourceM → List BlobDesc
  | [] => []
  | s :: rest => s.rs.blobs ++ allLayerBlobs rest

/-- How many of a layer's blobs are not in the chunk-dictionary set —
the layer's "new" data blobs. -/
def countNonDict (dict : List String) (blobs : List BlobDesc) : Nat :=
  (blobs.filter (fun b => !(idMem dict b.blob_id))).length

/-! ## Blob cache: `DummyCache::read` and `RafsCache::process_raw_chunk` -/

/-- Error cases on the cache read path.  `process_raw_chunk` raises plain
`eio!()` for both the length check and the digest check; the model gives
the two bail sites distinct constructors. -/
inductive CacheError
  | invalidArgument
  | badLength
  | digestMismatch
  | decompressFail
deriving DecidableEq, Repr

/-- The chunk information (`BlobChunkInfo`/`BlobV5ChunkInfo`) the read path
consults, together with `data`, the decompressed bytes the backend and the
codec yield for this chunk (the composition of the backend range read and
decompression, which are external interfaces). -/
structure ChunkModel where
  d_size : Nat
  block_id : Digest
  data : List Nat
deriving DecidableEq, Repr

/-- One `BlobIoDesc` entry. -/
structure BlobIoDescM where
  user_io : Bool
  offset : Nat
  size : Nat
  chunk : ChunkModel
deriving DecidableEq, Repr

/-- A cache instance: the configured digester and codec (external pure
interfaces, kept abstract as functions) and the `validate` flag. -/
structure CacheM where
  digestOf : List Nat → Digest
  validate : Bool
  decompress : List Nat → Option (List Nat)

/-- Modelled from the spec: `read_raw_chunk`/`read_backend_chunk` (§4.E,
the v6 cache core is not under `src/`): fetch and decompress one chunk —
yielding `c.data` — validate its length against `decompress_size`, and,
when `validate` is set, compare its digest with `block_id`. -/
def readRawChunk (m : CacheM) (c : ChunkModel) : Except CacheError (List Nat) :=
  if c.data.length ≠ c.d_size then .error .badLength
  else if m.validate ∧ m.digestOf c.data ≠ c.block_id then .error .digestMismatch
  else .ok c.data

/-- Per-descriptor buffers of the slow path (lines 125-134 of
`dummycache.rs`): one freshly allocated buffer per `user_io` descriptor. -/
def readUserChunks (m : CacheM) : List BlobIoDescM →
    Except CacheError (List (List Nat))
  | [] => .ok []
  | b :: rest =>
    if b.user_io then
      match readRawChunk m b.chunk with
      | .error e => .error e
      | .ok d =>
        match readUserChunks m rest with
        | .error e => .error e
        | .ok ds => .ok (d :: ds)
    else readUserChunks m rest

/-- `Σ bio.size` over the `user_io` descriptors. -/
def userSize : List BlobIoDescM → Nat
  | [] => 0
  | b :: rest => (if b.user_io then b.size else 0) + userSize rest

/-- Concatenate the gathered buffers. -/
def flattenAll : List (List Nat) → List Nat
  | [] => []
  | x :: rest => x ++ flattenAll rest

/-- Write `d` into `b` starting at `off`, keeping `b`'s length. -/
def overlayBytes (b : List Nat) (off : Nat) (d : List Nat) : List Nat :=
  b.take off ++ (d.take (b.length - off)) ++ b.drop (off + d.length)

/-- Scatter `data` over the buffer list starting at `off` in the first. -/
def scatterWrite : List (List Nat) → Nat → List Nat → List (List Nat)
  | [], _, _ => []
  | b :: rest, off, d =>
    overlayBytes b off d :: scatterWrite rest 0 (d.drop (b.length - off))

/-- Modelled from the spec: `copyv` (storage utils, not under `src/`):
gather-copy the concatenation of the source buffers into the scatter
buffers starting at `offset`, copying at most `total` bytes; returns the
updated buffers and the number of bytes copied. -/
def copyv (srcs : List (List Nat)) (bufs : List (List Nat))
    (offset total : Nat) : Except CacheError (List (List Nat) × Nat) :=
  let d := (flattenAll srcs).take total
  .ok (scatterWrite bufs offset d, d.length)

/-- `DummyCache::read` (lines 107-139 of `dummycache.rs`).  Buffers are
their byte contents; the result carries the updated buffers and the
returned count. -/
def dummyRead (m : CacheM) (bios : List BlobIoDescM)
    (bufs : List (List Nat)) : Except CacheError (List (List Nat) × Nat) :=
  match bios with
  | [] => .error .invalidArgument
  | b0 :: _ =>
    let offset := b0.offset
    let d_size := b0.chunk.d_size
    if bufs.length = 1 ∧ bios.length = 1 ∧ offset = 0 ∧
        d_size ≤ (bufs.headD []).length then
      if !b0.user_io then .ok (bufs, 0)
      else
        match readRawChunk m b0.chunk with
        | .error e => .error e
        | .ok d => .ok ([d ++ (bufs.headD []).drop d_size], d_size)
    else
      match readUserChunks m bios with
      | .error e => .error e
      | .ok buffers => copyv buffers bufs offset (userSize bios)

/-- First half of `process_raw_chunk` (lines 283-292 of `cache/mod.rs`):
the bytes the chunk buffer holds afterwards — the decompression output
when `need_decompress`, otherwise the raw bytes (copied, or already
in place when caller buffers alias). -/
def producedChunk (m : CacheM) (raw : List Nat) (need_decompress : Bool) :
    Option (List Nat) :=
  if need_decompress then m.decompress raw else some raw

/-- `RafsCache::process_raw_chunk` (lines 274-303 of `cache/mod.rs`). -/
def processRawChunk (m : CacheM) (cki : ChunkModel) (raw : List Nat)
    (need_decompress need_validate : Bool) :
    Except CacheError (List Nat × Nat) :=
  match producedChunk m raw need_decompress with
  | none => .error .decompressFail
  | some chunk =>
    if chunk.length ≠ cki.d_size then .error .badLength
    else if need_validate ∧ m.digestOf chunk ≠ cki.block_id then
      .error .digestMismatch
    else .ok (chunk, cki.d_size)

/-! ## Verification predicates -/

/-- Every position recorded in `blob_idx_map` is a valid index of a blob
table with `n` entries. -/
def MapBounded (m : BlobIdxMap) (n : Nat) : Prop :=
  ∀ k v, mapLookup m k = some v → v < n

/-- Every chunk of every node references a position below `n`. -/
def NodesBounded (ns : List Node) (n : Nat) : Prop :=
  ∀ nd ∈ ns, ∀ c ∈ nd.chunks, c.blob_index < n

/-- The nodes of the accumulator tree (empty before any layer/parent). -/
def stTreeNodes (st : MergeState) : List Node :=
  match st.tree with
  | some t => t.nodes
  | none => []

/-- The blob table carries no duplicate `blob_id` and every table entry's
id is a key of `blob_idx_map`. -/
def TableNodupInv (table : List BlobContextM) (map : BlobIdxMap) : Prop :=
  (table.map (fun c => c.blob_id)).Nodup ∧
    ∀ bc ∈ table, (mapLookup map bc.blob_id).isSome

/-- Whether a fallible computation succeeded (`Result::is_ok`). -/
def exceptIsOk {ε α : Type} : Except ε α → Bool
  | .ok _ => true
  | .error _ => false

deriving instance DecidableEq for Except

/-- The initial merge state after parent ingest and chunk-dict collection. -/
def initState (ctx : BuildContextM) (parent : Option RafsSuperM)
    (chunk_dict : Option RafsSuperM) : MergeState :=
  { tree := parent.map (fun p => p.tree)
    table := (parentIngest (parentBlobs parent) ([], [])).2
    map := (parentIngest (parentBlobs parent) ([], [])).1
    csz := none
    cfg := chunk_dict.map (fun d => d.meta)
    tarfs := ctx.tarfs_conversion
    fsv := .v6 }

/-! ## Concrete instances used to exhibit runs of the model -/

/-- A build context with remotely accessible blobs and no TARFS conversion. -/
def wCtx : BuildContextM :=
  { blob_accessible := true, tarfs_conversion := false, chunk_size := 1048576 }

/-- A plain (non-TARFS) metadata configuration. -/
def wCfg : MetaConfig :=
  { compressor := 1, digester := 1, explicit_uidgid := false,
    is_tarfs_mode := false }

/-- A single data blob with id `"aa"`. -/
def wBlob : BlobDesc :=
  { blob_id := "aa", chunk_size := 4096, separate := false,
    blob_meta_digest := [], blob_meta_size := 0, blob_toc_digest := [],
    blob_toc_size := 0, compressed_size := 10 }

/-- A regular-file node holding one chunk of blob 0. -/
def wNode : Node :=
  { path := ["", "f1"], whiteout := false, chunks := [⟨0⟩],
    layer_idx := 0, overlay := .lower }

/-- A one-blob, one-file source layer. -/
def wSrc : SourceM :=
  { rs := { blobs := [wBlob], tree := ⟨[wNode]⟩, meta := wCfg,
            version := .v6 },
    path_blob_id := "pathaa" }

/-- The output of merging `[wSrc]` alone. -/
def wOut : MergeOutput :=
  { blobTable := [{ blob_id := "aa", chunk_size := 4096, separate := false,
                    blob_meta_digest := [], blob_meta_size := 0,
                    blob_toc_digest := [], blob_toc_size := 0,
                    compressed_blob_size := 10 }]
    tree := ⟨[{ path := ["", "f1"], whiteout := false, chunks := [⟨0⟩],
                layer_idx := 0, overlay := .upperAddition }]⟩
    chunk_size := 4096
    fsv := .v6 }

/-- The node of `wSrc` after the walk of layer 0 (no parent). -/
def wWalked : Node :=
  { path := ["", "f1"], whiteout := false, chunks := [⟨0⟩],
    layer_idx := 0, overlay := .upperAddition }

/-- 64 zero hex characters: a valid override digest string. -/
def hex0 : String :=
  "0000000000000000000000000000000000000000000000000000000000000000"

/-- A second blob, id `"bb"`. -/
def c2BlobB : BlobDesc := { wBlob with blob_id := "bb" }

/-- A chunk-less file node at path `a`. -/
def c2NodeA : Node := { wNode with path := ["", "a"], chunks := [] }

/-- A chunk-less file node at path `b`. -/
def c2NodeB : Node := { wNode with path := ["", "b"], chunks := [] }

/-- First layer for the duplicate-id run: one new blob `"aa"`. -/
def c2SrcA : SourceM :=
  { rs := { blobs := [wBlob], tree := ⟨[c2NodeA]⟩, meta := wCfg,
            version := .v6 },
    path_blob_id := "pa" }

/-- Second layer for the duplicate-id run: one new blob `"bb"`. -/
def c2SrcB : SourceM :=
  { rs := { blobs := [c2BlobB], tree := ⟨[c2NodeB]⟩, meta := wCfg,
            version := .v6 },
    path_blob_id := "pb" }

/-- A layer referencing two non-dictionary blobs (violates I3). -/
def c3Src : SourceM :=
  { rs := { blobs := [wBlob, c2BlobB], tree := ⟨[]⟩, meta := wCfg,
            version := .v6 },
    path_blob_id := "p3" }

/-- A TARFS metadata configuration. -/
def c8Cfg : MetaConfig := { wCfg with is_tarfs_mode := true }

/-- A chunk dictionary that contributes no blobs, in TARFS mode. -/
def c8Dict : RafsSuperM :=
  { blobs := [], tree := ⟨[]⟩, meta := c8Cfg, version := .v6 }

/-- A chunk dictionary contributing one blob, in TARFS mode. -/
def c8DictOne : RafsSuperM :=
  { blobs := [{ wBlob with blob_id := "dd" }], tree := ⟨[]⟩, meta := c8Cfg,
    version := .v6 }

/-- A TARFS-mode source layer. -/
def c8Src : SourceM :=
  { rs := { blobs := [wBlob], tree := ⟨[wNode]⟩, meta := c8Cfg,
            version := .v6 },
    path_blob_id := "p8" }

/-- The parent blob replicated 65535 times. -/
def c5Blob : BlobDesc := { wBlob with blob_id := "pp" }

/-- A chunk-less root node of the parent image. -/
def c5PNode : Node :=
  { path := ["", "r"], whiteout := false, chunks := [], layer_idx := 0,
    overlay := .lower }

/-- A parent image contributing 65535 blobs. -/
def c5Parent : RafsSuperM :=
  { blobs := List.replicate 65535 c5Blob, tree := ⟨[c5PNode]⟩, meta := wCfg,
    version := .v6 }

/-- A one-blob source layer with a chunk-less node. -/
def c5Src : SourceM :=
  { rs := { blobs := [wBlob], tree := ⟨[{ wNode with chunks := [] }]⟩,
            meta := wCfg, version := .v6 },
    path_blob_id := "p5" }

/-- The node of `c5Src` after the walk of layer 0 above 65535 parent
layers. -/
def c5WNode : Node :=
  { path := ["", "f1"], whiteout := false, chunks := [], layer_idx := 65535,
    overlay := .upperAddition }

/-- The blob context the merge builds for `wBlob` in the `c5` run. -/
def c5Ctx : BlobContextM :=
  { blob_id := "aa", chunk_size := 4096, separate := false,
    blob_meta_digest := [], blob_meta_size := 0, blob_toc_digest := [],
    blob_toc_size := 0, compressed_blob_size := 10 }

/-- The accumulator state after the single layer of the `c5` run. -/
def c5St : MergeState :=
  { tree := some ⟨[c5WNode, c5PNode]⟩
    table := (parentIngest (parentBlobs (some c5Parent)) ([], [])).2 ++
      [c5Ctx]
    map := ("aa", ((parentIngest (parentBlobs (some c5Parent))
      ([], [])).2).length) ::
      (parentIngest (parentBlobs (some c5Parent)) ([], [])).1
    csz := some 4096
    cfg := some wCfg
    tarfs := false
    fsv := .v6 }

/-! ## Basic lemmas: map, table, chunk-size check -/

theorem mapBounded_mono {m : BlobIdxMap} {a b : Nat} (h : MapBounded m a)
    (hab : a ≤ b) : MapBounded m b :=
  fun k v hk => lt_of_lt_of_le (h k v hk) hab

theorem mapLookup_cons_isSome {k : String} {v : Nat} {m : BlobIdxMap}
    {key : String} (h : (mapLookup m key).isSome) :
    (mapLookup ((k, v) :: m) key).isSome := by
  by_cases hk : k = key <;> simp [mapLookup, hk, h]

theorem addIfVacant_cases (t : List BlobContextM) (m : BlobIdxMap) (k : String)
    (c : BlobContextM) :
    (mapLookup m k = none ∧
      addIfVacant t m k c = (t ++ [c], (k, t.length) :: m)) ∨
    ((mapLookup m k).isSome ∧ addIfVacant t m k c = (t, m)) := by
  cases h : mapLookup m k with
  | none => exact Or.inl ⟨rfl, by simp [addIfVacant, h]⟩
  | some v => exact Or.inr ⟨by simp [h], by simp [addIfVacant, h]⟩

theorem addIfVacant_length_le (t : List BlobContextM) (m : BlobIdxMap)
    (k : String) (c : BlobContextM) :
    t.length ≤ (addIfVacant t m k c).1.length := by
  rcases addIfVacant_cases t m k c with ⟨_, he⟩ | ⟨_, he⟩ <;> simp [he]

theorem addIfVacant_bounded {t : List BlobContextM} {m : BlobIdxMap}
    (k : String) (c : BlobContextM) (h : MapBounded m t.length) :
    MapBounded (addIfVacant t m k c).2 (addIfVacant t m k c).1.length := by
  rcases addIfVacant_cases t m k c with ⟨_, he⟩ | ⟨_, he⟩
  · rw [he]
    intro k' v hk
    simp only [mapLookup] at hk
    by_cases hkk : k = k'
    · simp only [hkk, if_pos rfl] at hk
      cases hk
      simp
    · rw [if_neg hkk] at hk
      have := h k' v hk
      simp
      omega
  · rw [he]
    exact h

theorem addIfVacant_lookup_isSome {m : BlobIdxMap} (t : List BlobContextM)
    (k : String) (c : BlobContextM) {key : String}
    (h : (mapLookup m key).isSome) :
    (mapLookup (addIfVacant t m k c).2 key).isSome := by
  rcases addIfVacant_cases t m k c with ⟨_, he⟩ | ⟨_, he⟩ <;> rw [he]
  · exact mapLookup_cons_isSome h
  · exact h

theorem addIfVacant_lookup_self (t : List BlobContextM) (m : BlobIdxMap)
    (k : String) (c : BlobContextM) :
    (mapLookup (addIfVacant t m k c).2 k).isSome := by
  rcases addIfVacant_cases t m k c with ⟨_, he⟩ | ⟨hs, he⟩ <;> rw [he]
  · simp [mapLookup]
  · exact hs

theorem chunkCheck_ok {acc : Option Nat} {sz : Nat} {res : Option Nat}
    (h : chunkCheck acc sz = .ok res) :
    res = some sz ∧ ∀ x, acc = some x → x = sz := by
  cases acc with
  | none =>
    simp only [chunkCheck] at h
    cases h
    exact ⟨rfl, by intro x hx; cases hx⟩
  | some c =>
    by_cases hc : c = sz
    · simp only [chunkCheck, if_pos hc] at h
      cases h
      exact ⟨by rw [hc], by intro x hx; cases hx; exact hc⟩
    · simp [chunkCheck, hc] at h

theorem chunkCheck_error {acc : Option Nat} {sz : Nat} {e : MergeError}
    (h : chunkCheck acc sz = .error e) : e = .chunkSizeMismatch := by
  cases acc with
  | none => simp [chunkCheck] at h
  | some c =>
    by_cases hc : c = sz <;> simp [chunkCheck, hc] at h
    exact h.symm

theorem getDigestFromList_none (i : Nat) :
    getDigestFromList none i = .ok none := rfl

theorem getSizeFromList_none (i : Nat) :
    getSizeFromList none i = .ok none := rfl

theorem getDigestFromList_error {ds : Option (List String)} {i : Nat}
    {e : MergeError} (h : getDigestFromList ds i = .error e) :
    e = .digestIndex ∨ e = .hexDecode := by
  cases ds with
  | none => simp [getDigestFromList] at h
  | some l =>
    simp only [getDigestFromList] at h
    cases hl : l[i]? with
    | none => rw [hl] at h; cases h; exact Or.inl rfl
    | some s =>
      rw [hl] at h
      simp only [] at h
      cases hx : fromHex32 s with
      | none => rw [hx] at h; cases h; exact Or.inr rfl
      | some d => rw [hx] at h; cases h

theorem getSizeFromList_error {ds : Option (List Nat)} {i : Nat}
    {e : MergeError} (h : getSizeFromList ds i = .error e) : e = .sizeIndex := by
  cases ds with
  | none => simp [getSizeFromList] at h
  | some l =>
    simp only [getSizeFromList] at h
    cases hl : l[i]? with
    | none => rw [hl] at h; cases h; rfl
    | some s => rw [hl] at h; cases h

/-! ## The per-blob loop body -/

theorem processBlob_ok {ctx : BuildContextM} {dict : List String}
    {bd : Option (List String)} {bs : Option (List Nat)}
    {btd : Option (List String)} {bts : Option (List Nat)}
    {i : Nat} {pid : String} {tf : Bool} {st st' : LayerBlobState}
    {b : BlobDesc}
    (h : processBlob ctx dict bd bs btd bts i pid tf st b = .ok st') :
    (∃ c, st'.table = (addIfVacant st.table st.map b.blob_id c).1 ∧
          st'.map = (addIfVacant st.table st.map b.blob_id c).2) ∧
    st'.csz = some b.chunk_size ∧
    (∀ x, st.csz = some x → x = b.chunk_size) ∧
    ((idMem dict b.blob_id = true ∧ st'.added = st.added) ∨
      (idMem dict b.blob_id = false ∧ st.added = false ∧ st'.added = true)) := by
  unfold processBlob at h
  cases hc : chunkCheck st.csz b.chunk_size with
  | error e => rw [hc] at h; exact Except.noConfusion h
  | ok csz =>
    rw [hc] at h
    obtain ⟨hres, hacc⟩ := chunkCheck_ok hc
    simp only [] at h
    cases hd : idMem dict b.blob_id with
    | true =>
      simp only [hd, if_true] at h
      injection h with h
      subst h
      exact ⟨⟨blobCtxFrom b, rfl, rfl⟩, by rw [hres], hacc, Or.inl ⟨rfl, rfl⟩⟩
    | false =>
      simp only [hd, Bool.false_eq_true, if_false] at h
      cases ha : st.added with
      | true => simp only [ha, if_true] at h; exact Except.noConfusion h
      | false =>
        simp only [ha, Bool.false_eq_true, if_false] at h
        cases hg1 : getDigestFromList bd i with
        | error e => rw [hg1] at h; exact Except.noConfusion h
        | ok od =>
          rw [hg1] at h
          simp only [] at h
          cases hg2 : getSizeFromList bs i with
          | error e => rw [hg2] at h; exact Except.noConfusion h
          | ok osz =>
            rw [hg2] at h
            simp only [] at h
            cases hg3 : getDigestFromList btd i with
            | error e => rw [hg3] at h; exact Except.noConfusion h
            | ok otd =>
              rw [hg3] at h
              simp only [] at h
              cases hg4 : getSizeFromList bts i with
              | error e => rw [hg4] at h; exact Except.noConfusion h
              | ok otsz =>
                rw [hg4] at h
                simp only [] at h
                injection h with h
                subst h
                exact ⟨⟨applyIdAndOverrides b ctx.blob_accessible tf pid od osz otd otsz,
                  rfl, rfl⟩, by rw [hres], hacc, Or.inr ⟨rfl, rfl, rfl⟩⟩

theorem processBlob_dict {ctx : BuildContextM} {dict : List String}
    {bd : Option (List String)} {bs : Option (List Nat)}
    {btd : Option (List String)} {bts : Option (List Nat)}
    {i : Nat} {pid : String} {tf : Bool} {st : LayerBlobState} {b : BlobDesc}
    {csz : Option Nat} (hd : idMem dict b.blob_id = true)
    (hc : chunkCheck st.csz b.chunk_size = .ok csz) :
    processBlob ctx dict bd bs btd bts i pid tf st b =
      .ok { table := (addIfVacant st.table st.map b.blob_id (blobCtxFrom b)).1
            map := (addIfVacant st.table st.map b.blob_id (blobCtxFrom b)).2
            csz := csz, added := st.added } := by
  simp [processBlob, hc, hd]

theorem processBlob_nondict_first {ctx : BuildContextM} {dict : List String}
    {i : Nat} {pid : String} {tf : Bool} {st : LayerBlobState} {b : BlobDesc}
    {csz : Option Nat} (hd : idMem dict b.blob_id = false)
    (ha : st.added = false)
    (hc : chunkCheck st.csz b.chunk_size = .ok csz) :
    processBlob ctx dict none none none none i pid tf st b =
      .ok { table := (addIfVacant st.table st.map b.blob_id
              (applyIdAndOverrides b ctx.blob_accessible tf pid
                none none none none)).1
            map := (addIfVacant st.table st.map b.blob_id
              (applyIdAndOverrides b ctx.blob_accessible tf pid
                none none none none)).2
            csz := csz, added := true } := by
  simp [processBlob, hc, hd, ha, getDigestFromList, getSizeFromList]

theorem processBlob_nondict_second {ctx : BuildContextM} {dict : List String}
    {bd : Option (List String)} {bs : Option (List Nat)}
    {btd : Option (List String)} {bts : Option (List Nat)}
    {i : Nat} {pid : String} {tf : Bool} {st : LayerBlobState} {b : BlobDesc}
    {csz : Option Nat} (hd : idMem dict b.blob_id = false)
    (ha : st.added = true)
    (hc : chunkCheck st.csz b.chunk_size = .ok csz) :
    processBlob ctx dict bd bs btd bts i pid tf st b =
      .error .blobConstraint := by
  simp [processBlob, hc, hd, ha]

theorem processBlob_error_blobConstraint {ctx : BuildContextM}
    {dict : List String} {bd : Option (List String)} {bs : Option (List Nat)}
    {btd : Option (List String)} {bts : Option (List Nat)}
    {i : Nat} {pid : String} {tf : Bool} {st : LayerBlobState} {b : BlobDesc}
    (h : processBlob ctx dict bd bs btd bts i pid tf st b =
      .error .blobConstraint) :
    idMem dict b.blob_id = false ∧ st.added = true := by
  unfold processBlob at h
  cases hc : chunkCheck st.csz b.chunk_size with
  | error e =>
    rw [hc] at h
    injection h with h
    exact absurd (chunkCheck_error (hc.trans (by rw [h]))) (by simp)
  | ok csz =>
    rw [hc] at h
    simp only [] at h
    cases hd : idMem dict b.blob_id with
    | true => simp only [hd, if_true] at h; exact Except.noConfusion h
    | false =>
      simp only [hd, Bool.false_eq_true, if_false] at h
      cases ha : st.added with
      | true => exact ⟨rfl, rfl⟩
      | false =>
        simp only [ha, Bool.false_eq_true, if_false] at h
        cases hg1 : getDigestFromList bd i with
        | error e =>
          rw [hg1] at h
          injection h with h
          subst h
          rcases getDigestFromList_error hg1 with h' | h' <;> cases h'
        | ok od =>
          rw [hg1] at h
          simp only [] at h
          cases hg2 : getSizeFromList bs i with
          | error e =>
            rw [hg2] at h
            injection h with h
            subst h
            cases getSizeFromList_error hg2
          | ok osz =>
            rw [hg2] at h
            simp only [] at h
            cases hg3 : getDigestFromList btd i with
            | error e =>
              rw [hg3] at h
              injection h with h
              subst h
              rcases getDigestFromList_error hg3 with h' | h' <;> cases h'
            | ok otd =>
              rw [hg3] at h
              simp only [] at h
              cases hg4 : getSizeFromList bts i with
              | error e =>
                rw [hg4] at h
                injection h with h
                subst h
                cases getSizeFromList_error hg4
              | ok otsz =>
                rw [hg4] at h
                simp only [] at h
                exact Except.noConfusion h

theorem processBlob_not_hexDecode {ctx : BuildContextM} {dict : List String}
    {bs : Option (List Nat)} {bts : Option (List Nat)}
    {i : Nat} {pid : String} {tf : Bool} {st : LayerBlobState} {b : BlobDesc}
    (h : processBlob ctx dict none bs none bts i pid tf st b =
      .error .hexDecode) : False := by
  unfold processBlob at h
  cases hc : chunkCheck st.csz b.chunk_size with
  | error e =>
    rw [hc] at h
    injection h with h
    exact absurd (chunkCheck_error (hc.trans (by rw [h]))) (by simp)
  | ok csz =>
    rw [hc] at h
    simp only [] at h
    cases hd : idMem dict b.blob_id with
    | true => simp only [hd, if_true] at h; exact Except.noConfusion h
    | false =>
      simp only [hd, Bool.false_eq_true, if_false] at h
      cases ha : st.added with
      | true => simp only [ha, if_true] at h; injection h with h; cases h
      | false =>
        simp only [ha, Bool.false_eq_true, if_false, getDigestFromList] at h
        cases hg2 : getSizeFromList bs i with
        | error e =>
          rw [hg2] at h
          injection h with h
          subst h
          cases getSizeFromList_error hg2
        | ok osz =>
          rw [hg2] at h
          simp only [] at h
          cases hg4 : getSizeFromList bts i with
          | error e =>
            rw [hg4] at h
            injection h with h
            subst h
            cases getSizeFromList_error hg4
          | ok otsz =>
            rw [hg4] at h
            simp only [] at h
            exact Except.noConfusion h

/-! ## The per-layer blob loop -/

theorem processBlobs_bounded {ctx : BuildContextM} {dict : List String}
    {bd : Option (List String)} {bs : Option (List Nat)}
    {btd : Option (List String)} {bts : Option (List Nat)}
    {i : Nat} {pid : String} {tf : Bool} :
    ∀ {blobs : List BlobDesc} {st st' : LayerBlobState},
    processBlobs ctx dict bd bs btd bts i pid tf st blobs = .ok st' →
    MapBounded st.map st.table.length →
    MapBounded st'.map st'.table.length ∧ st.table.length ≤ st'.table.length := by
  intro blobs
  induction blobs with
  | nil =>
    intro st st' h hb
    simp only [processBlobs] at h
    injection h with h
    subst h
    exact ⟨hb, le_refl _⟩
  | cons b rest ih =>
    intro st st' h hb
    simp only [processBlobs] at h
    cases hp : processBlob ctx dict bd bs btd bts i pid tf st b with
    | error e => rw [hp] at h; exact Except.noConfusion h
    | ok st1 =>
      rw [hp] at h
      obtain ⟨⟨c, ht, hm⟩, -, -, -⟩ := processBlob_ok hp
      have hb1 : MapBounded st1.map st1.table.length := by
        rw [ht, hm]; exact addIfVacant_bounded _ _ hb
      have hlen : st.table.length ≤ st1.table.length := by
        rw [ht]; exact addIfVacant_length_le _ _ _ _
      obtain ⟨h1, h2⟩ := ih h hb1
      exact ⟨h1, le_trans hlen h2⟩

theorem processBlobs_lookup_isSome {ctx : BuildContextM} {dict : List String}
    {bd : Option (List String)} {bs : Option (List Nat)}
    {btd : Option (List String)} {bts : Option (List Nat)}
    {i : Nat} {pid : String} {tf : Bool} :
    ∀ {blobs : List BlobDesc} {st st' : LayerBlobState},
    processBlobs ctx dict bd bs btd bts i pid tf st blobs = .ok st' →
    ∀ key, (mapLookup st.map key).isSome → (mapLookup st'.map key).isSome := by
  intro blobs
  induction blobs with
  | nil =>
    intro st st' h key hk
    simp only [processBlobs] at h
    injection h with h
    subst h
    exact hk
  | cons b rest ih =>
    intro st st' h key hk
    simp only [processBlobs] at h
    cases hp : processBlob ctx dict bd bs btd bts i pid tf st b with
    | error e => rw [hp] at h; exact Except.noConfusion h
    | ok st1 =>
      rw [hp] at h
      obtain ⟨⟨c, ht, hm⟩, -, -, -⟩ := processBlob_ok hp
      refine ih h key ?_
      rw [hm]
      exact addIfVacant_lookup_isSome _ _ _ hk

theorem processBlobs_mem_isSome {ctx : BuildContextM} {dict : List String}
    {bd : Option (List String)} {bs : Option (List Nat)}
    {btd : Option (List String)} {bts : Option (List Nat)}
    {i : Nat} {pid : String} {tf : Bool} :
    ∀ {blobs : List BlobDesc} {st st' : LayerBlobState},
    processBlobs ctx dict bd bs btd bts i pid tf st blobs = .ok st' →
    ∀ b ∈ blobs, (mapLookup st'.map b.blob_id).isSome := by
  intro blobs
  induction blobs with
  | nil => intro st st' _ b hb; cases hb
  | cons b rest ih =>
    intro st st' h b' hb'
    simp only [processBlobs] at h
    cases hp : processBlob ctx dict bd bs btd bts i pid tf st b with
    | error e => rw [hp] at h; exact Except.noConfusion h
    | ok st1 =>
      rw [hp] at h
      obtain ⟨⟨c, ht, hm⟩, -, -, -⟩ := processBlob_ok hp
      rcases List.mem_cons.mp hb' with rfl | hmem
      · refine processBlobs_lookup_isSome h _ ?_
        rw [hm]
        exact addIfVacant_lookup_self _ _ _ _
      · exact ih h b' hmem

theorem processBlobs_csz {ctx : BuildContextM} {dict : List String}
    {bd : Option (List String)} {bs : Option (List Nat)}
    {btd : Option (List String)} {bts : Option (List Nat)}
    {i : Nat} {pid : String} {tf : Bool} :
    ∀ {blobs : List BlobDesc} {st st' : LayerBlobState},
    processBlobs ctx dict bd bs btd bts i pid tf st blobs = .ok st' →
    (∀ x, st.csz = some x → st'.csz = some x) ∧
    (∀ b ∈ blobs, st'.csz = some b.chunk_size) := by
  intro blobs
  induction blobs with
  | nil =>
    intro st st' h
    simp only [processBlobs] at h
    injection h with h
    subst h
    exact ⟨fun x hx => hx, fun b hb => absurd hb (List.not_mem_nil b)⟩
  | cons b rest ih =>
    intro st st' h
    simp only [processBlobs] at h
    cases hp : processBlob ctx dict bd bs btd bts i pid tf st b with
    | error e => rw [hp] at h; exact Except.noConfusion h
    | ok st1 =>
      rw [hp] at h
      obtain ⟨-, hcsz, hacc, -⟩ := processBlob_ok hp
      obtain ⟨hpers, hall⟩ := ih h
      refine ⟨?_, ?_⟩
      · intro x hx
        have : x = b.chunk_size := hacc x hx
        subst this
        exact hpers _ hcsz
      · intro b' hb'
        rcases List.mem_cons.mp hb' with rfl | hmem
        · exact hpers _ hcsz
        · exact hall b' hmem

theorem countNonDict_nil (dict : List String) : countNonDict dict [] = 0 := rfl

theorem countNonDict_cons (dict : List String) (b : BlobDesc)
    (rest : List BlobDesc) :
    countNonDict dict (b :: rest) =
      (if idMem dict b.blob_id then 0 else 1) + countNonDict dict rest := by
  cases hd : idMem dict b.blob_id
  · simp [countNonDict, List.filter_cons, hd]
    omega
  · simp [countNonDict, List.filter_cons, hd]

theorem processBlobs_count {ctx : BuildContextM} {dict : List String}
    {bd : Option (List String)} {bs : Option (List Nat)}
    {btd : Option (List String)} {bts : Option (List Nat)}
    {i : Nat} {pid : String} {tf : Bool} :
    ∀ {blobs : List BlobDesc} {st st' : LayerBlobState},
    processBlobs ctx dict bd bs btd bts i pid tf st blobs = .ok st' →
    (st.added = false → countNonDict dict blobs ≤ 1) ∧
    (st.added = true → countNonDict dict blobs = 0) := by
  intro blobs
  induction blobs with
  | nil =>
    intro st st' _
    exact ⟨fun _ => by simp [countNonDict_nil], fun _ => countNonDict_nil dict⟩
  | cons b rest ih =>
    intro st st' h
    simp only [processBlobs] at h
    cases hp : processBlob ctx dict bd bs btd bts i pid tf st b with
    | error e => rw [hp] at h; exact Except.noConfusion h
    | ok st1 =>
      rw [hp] at h
      obtain ⟨-, -, -, hbranch⟩ := processBlob_ok hp
      obtain ⟨ih1, ih2⟩ := ih h
      rcases hbranch with ⟨hd, hadd⟩ | ⟨hd, hadd0, hadd1⟩
      · constructor
        · intro hfalse
          have hr : countNonDict dict rest ≤ 1 := ih1 (by rw [hadd, hfalse])
          rw [countNonDict_cons, hd]
          simpa using hr
        · intro htrue
          have hr : countNonDict dict rest = 0 := ih2 (by rw [hadd, htrue])
          rw [countNonDict_cons, hd]
          simpa using hr
      · constructor
        · intro _
          have hr : countNonDict dict rest = 0 := ih2 hadd1
          rw [countNonDict_cons, hd]
          simp [hr]
        · intro htrue
          rw [hadd0] at htrue
          cases htrue

theorem processBlobs_no_blobConstraint {ctx : BuildContextM}
    {dict : List String} {bd : Option (List String)} {bs : Option (List Nat)}
    {btd : Option (List String)} {bts : Option (List Nat)}
    {i : Nat} {pid : String} {tf : Bool} :
    ∀ {blobs : List BlobDesc} {st : LayerBlobState},
    (st.added = false → countNonDict dict blobs ≤ 1) →
    (st.added = true → countNonDict dict blobs = 0) →
    processBlobs ctx dict bd bs btd bts i pid tf st blobs ≠
      .error .blobConstraint := by
  intro blobs
  induction blobs with
  | nil =>
    intro st _ _ h
    simp only [processBlobs] at h
    exact Except.noConfusion h
  | cons b rest ih =>
    intro st h0 h1 h
    simp only [processBlobs] at h
    cases hp : processBlob ctx dict bd bs btd bts i pid tf st b with
    | error e =>
      rw [hp] at h
      injection h with h
      subst h
      obtain ⟨hd, hadd⟩ := processBlob_error_blobConstraint hp
      have := h1 hadd
      rw [countNonDict_cons, hd] at this
      simp at this
    | ok st1 =>
      rw [hp] at h
      obtain ⟨-, -, -, hbranch⟩ := processBlob_ok hp
      rcases hbranch with ⟨hd, hadd⟩ | ⟨hd, hadd0, hadd1⟩
      · refine ih ?_ ?_ h
        · intro hfalse
          have := h0 (by rw [← hadd, hfalse])
          rw [countNonDict_cons, hd] at this
          simpa using this
        · intro htrue
          have := h1 (by rw [← hadd, htrue])
          rw [countNonDict_cons, hd] at this
          simpa using this
      · refine ih ?_ ?_ h
        · intro hfalse
          rw [hadd1] at hfalse
          cases hfalse
        · intro _
          have := h0 hadd0
          rw [countNonDict_cons, hd] at this
          simp at this
          omega

theorem processBlobs_bc_added {ctx : BuildContextM} {dict : List String}
    {i : Nat} {pid : String} {tf : Bool} :
    ∀ {blobs : List BlobDesc} {st : LayerBlobState} {cs : Nat},
    st.added = true → 1 ≤ countNonDict dict blobs →
    (∀ b ∈ blobs, b.chunk_size = cs) → st.csz = some cs →
    processBlobs ctx dict none none none none i pid tf st blobs =
      .error .blobConstraint := by
  intro blobs
  induction blobs with
  | nil =>
    intro st cs _ hcount _ _
    rw [countNonDict_nil] at hcount
    omega
  | cons b rest ih =>
    intro st cs hadd hcount hsz hcsz
    have hbsz : b.chunk_size = cs := hsz b (List.mem_cons_self b rest)
    have hc : chunkCheck st.csz b.chunk_size = .ok (some cs) := by
      rw [hcsz, hbsz]
      simp [chunkCheck]
    cases hd : idMem dict b.blob_id with
    | true =>
      simp only [processBlobs]
      rw [processBlob_dict hd hc]
      exact ih hadd
        (by rw [countNonDict_cons, hd] at hcount; simpa using hcount)
        (fun b' hb' => hsz b' (List.mem_cons_of_mem b hb')) rfl
    | false =>
      simp only [processBlobs]
      rw [processBlob_nondict_second hd hadd hc]

theorem processBlobs_bc {ctx : BuildContextM} {dict : List String}
    {i : Nat} {pid : String} {tf : Bool} :
    ∀ {blobs : List BlobDesc} {st : LayerBlobState} {cs : Nat},
    st.added = false → 2 ≤ countNonDict dict blobs →
    (∀ b ∈ blobs, b.chunk_size = cs) →
    (st.csz = none ∨ st.csz = some cs) →
    processBlobs ctx dict none none none none i pid tf st blobs =
      .error .blobConstraint := by
  intro blobs
  induction blobs with
  | nil =>
    intro st cs _ hcount _ _
    rw [countNonDict_nil] at hcount
    omega
  | cons b rest ih =>
    intro st cs hadd hcount hsz hcsz
    have hbsz : b.chunk_size = cs := hsz b (List.mem_cons_self b rest)
    have hc : chunkCheck st.csz b.chunk_size = .ok (some cs) := by
      rcases hcsz with hn | hs
      · rw [hn, hbsz]; simp [chunkCheck]
      · rw [hs, hbsz]; simp [chunkCheck]
    cases hd : idMem dict b.blob_id with
    | true =>
      simp only [processBlobs]
      rw [processBlob_dict hd hc]
      exact ih hadd
        (by rw [countNonDict_cons, hd] at hcount; simpa using hcount)
        (fun b' hb' => hsz b' (List.mem_cons_of_mem b hb')) (Or.inr rfl)
    | false =>
      simp only [processBlobs]
      rw [processBlob_nondict_first hd hadd hc]
      exact processBlobs_bc_added rfl
        (by rw [countNonDict_cons, hd] at hcount; simp at hcount; omega)
        (fun b' hb' => hsz b' (List.mem_cons_of_mem b hb')) rfl

/-! ## The BFS walk -/

theorem rewriteChunk_bounded {blobs : List BlobDesc} {map : BlobIdxMap}
    {n : Nat} {c c' : ChunkRef} (h : rewriteChunk blobs map c = .ok c')
    (hb : MapBounded map n)
    (hm : ∀ b ∈ blobs, (mapLookup map b.blob_id).isSome) :
    c'.blob_index < n := by
  unfold rewriteChunk at h
  cases hg : blobs[c.blob_index]? with
  | none => rw [hg] at h; exact Except.noConfusion h
  | some sb =>
    rw [hg] at h
    simp only [] at h
    have hsb : sb ∈ blobs := List.getElem?_mem hg
    cases hl : mapLookup map sb.blob_id with
    | none =>
      have := hm sb hsb
      rw [hl] at this
      simp at this
    | some idx =>
      rw [hl] at h
      injection h with h
      subst h
      exact hb _ _ hl

theorem rewriteChunks_bounded {blobs : List BlobDesc} {map : BlobIdxMap}
    {n : Nat} :
    ∀ {cs cs' : List ChunkRef}, rewriteChunks blobs map cs = .ok cs' →
    MapBounded map n →
    (∀ b ∈ blobs, (mapLookup map b.blob_id).isSome) →
    ∀ c ∈ cs', c.blob_index < n := by
  intro cs
  induction cs with
  | nil =>
    intro cs' h _ _ c hc
    simp only [rewriteChunks] at h
    injection h with h
    subst h
    cases hc
  | cons c0 rest ih =>
    intro cs' h hb hm c hc
    simp only [rewriteChunks] at h
    cases h1 : rewriteChunk blobs map c0 with
    | error e => rw [h1] at h; exact Except.noConfusion h
    | ok c0' =>
      rw [h1] at h
      simp only [] at h
      cases h2 : rewriteChunks blobs map rest with
      | error e => rw [h2] at h; exact Except.noConfusion h
      | ok rest' =>
        rw [h2] at h
        injection h with h
        subst h
        rcases List.mem_cons.mp hc with rfl | hmem
        · exact rewriteChunk_bounded h1 hb hm
        · exact ih h2 hb hm c hmem

theorem rewriteChunk_error {blobs : List BlobDesc} {map : BlobIdxMap}
    {c : ChunkRef} {e : MergeError} (h : rewriteChunk blobs map c = .error e) :
    e = .chunkIndexPanic := by
  unfold rewriteChunk at h
  cases hg : blobs[c.blob_index]? with
  | none => rw [hg] at h; injection h with h; exact h.symm
  | some sb =>
    rw [hg] at h
    simp only [] at h
    cases hl : mapLookup map sb.blob_id with
    | none => rw [hl] at h; exact Except.noConfusion h
    | some idx => rw [hl] at h; exact Except.noConfusion h

theorem rewriteChunks_error {blobs : List BlobDesc} {map : BlobIdxMap} :
    ∀ {cs : List ChunkRef} {e : MergeError},
    rewriteChunks blobs map cs = .error e → e = .chunkIndexPanic := by
  intro cs
  induction cs with
  | nil =>
    intro e h
    simp only [rewriteChunks] at h
    exact Except.noConfusion h
  | cons c0 rest ih =>
    intro e h
    simp only [rewriteChunks] at h
    cases h1 : rewriteChunk blobs map c0 with
    | error e' =>
      rw [h1] at h
      injection h with h
      subst h
      exact rewriteChunk_error h1
    | ok c0' =>
      rw [h1] at h
      simp only [] at h
      cases h2 : rewriteChunks blobs map rest with
      | error e' =>
        rw [h2] at h
        injection h with h
        subst h
        exact ih h2
      | ok rest' => rw [h2] at h; exact Except.noConfusion h

theorem walkNode_ok {p i : Nat} {blobs : List BlobDesc} {map : BlobIdxMap}
    {nd nd' : Node} {n : Nat} (h : walkNode p i blobs map nd = .ok nd')
    (hb : MapBounded map n)
    (hm : ∀ b ∈ blobs, (mapLookup map b.blob_id).isSome) :
    (∀ c ∈ nd'.chunks, c.blob_index < n) ∧
    nd'.layer_idx = i + p ∧ p + i ≤ 65535 := by
  unfold walkNode at h
  cases hc : rewriteChunks blobs map nd.chunks with
  | error e => rw [hc] at h; exact Except.noConfusion h
  | ok cs =>
    rw [hc] at h
    simp only [] at h
    by_cases h1 : 65535 < i
    · rw [if_pos h1] at h; exact Except.noConfusion h
    · rw [if_neg h1] at h
      by_cases h2 : 65535 < p + i
      · rw [if_pos h2] at h; exact Except.noConfusion h
      · rw [if_neg h2] at h
        injection h with h
        subst h
        exact ⟨fun c hcm => rewriteChunks_bounded hc hb hm c hcm, rfl, by omega⟩

theorem walkNode_error {p i : Nat} {blobs : List BlobDesc} {map : BlobIdxMap}
    {nd : Node} {e : MergeError} (h : walkNode p i blobs map nd = .error e) :
    e = .tooManyLayers ∨ e = .chunkIndexPanic := by
  unfold walkNode at h
  cases hc : rewriteChunks blobs map nd.chunks with
  | error e' =>
    rw [hc] at h
    injection h with h
    subst h
    exact Or.inr (rewriteChunks_error hc)
  | ok cs =>
    rw [hc] at h
    simp only [] at h
    by_cases h1 : 65535 < i
    · rw [if_pos h1] at h; injection h with h; exact Or.inl h.symm
    · rw [if_neg h1] at h
      by_cases h2 : 65535 < p + i
      · rw [if_pos h2] at h; injection h with h; exact Or.inl h.symm
      · rw [if_neg h2] at h; exact Except.noConfusion h

theorem walkNodes_ok {p i : Nat} {blobs : List BlobDesc} {map : BlobIdxMap}
    {n : Nat} :
    ∀ {nds nds' : List Node}, walkNodes p i blobs map nds = .ok nds' →
    MapBounded map n →
    (∀ b ∈ blobs, (mapLookup map b.blob_id).isSome) →
    ∀ nd' ∈ nds', (∀ c ∈ nd'.chunks, c.blob_index < n) ∧
      nd'.layer_idx = i + p ∧ p + i ≤ 65535 := by
  intro nds
  induction nds with
  | nil =>
    intro nds' h _ _ nd' hnd
    simp only [walkNodes] at h
    injection h with h
    subst h
    cases hnd
  | cons nd0 rest ih =>
    intro nds' h hb hm nd' hnd
    simp only [walkNodes] at h
    cases h1 : walkNode p i blobs map nd0 with
    | error e => rw [h1] at h; exact Except.noConfusion h
    | ok nd0' =>
      rw [h1] at h
      simp only [] at h
      cases h2 : walkNodes p i blobs map rest with
      | error e => rw [h2] at h; exact Except.noConfusion h
      | ok rest' =>
        rw [h2] at h
        injection h with h
        subst h
        rcases List.mem_cons.mp hnd with rfl | hmem
        · exact walkNode_ok h1 hb hm
        · exact ih h2 hb hm nd' hmem

theorem walkNodes_ok_nonempty {p i : Nat} {blobs : List BlobDesc}
    {map : BlobIdxMap} {nd0 : Node} {rest nds' : List Node}
    (h : walkNodes p i blobs map (nd0 :: rest) = .ok nds') :
    p + i ≤ 65535 := by
  simp only [walkNodes] at h
  cases h1 : walkNode p i blobs map nd0 with
  | error e => rw [h1] at h; exact Except.noConfusion h
  | ok nd0' =>
    unfold walkNode at h1
    cases hc : rewriteChunks blobs map nd0.chunks with
    | error e => rw [hc] at h1; exact Except.noConfusion h1
    | ok cs =>
      rw [hc] at h1
      simp only [] at h1
      by_cases hx1 : 65535 < i
      · rw [if_pos hx1] at h1; exact Except.noConfusion h1
      · rw [if_neg hx1] at h1
        by_cases hx2 : 65535 < p + i
        · rw [if_pos hx2] at h1; exact Except.noConfusion h1
        · omega

theorem walkNodes_error {p i : Nat} {blobs : List BlobDesc}
    {map : BlobIdxMap} :
    ∀ {nds : List Node} {e : MergeError},
    walkNodes p i blobs map nds = .error e →
    e = .tooManyLayers ∨ e = .chunkIndexPanic := by
  intro nds
  induction nds with
  | nil =>
    intro e h
    simp only [walkNodes] at h
    exact Except.noConfusion h
  | cons nd0 rest ih =>
    intro e h
    simp only [walkNodes] at h
    cases h1 : walkNode p i blobs map nd0 with
    | error e' =>
      rw [h1] at h
      injection h with h
      subst h
      exact walkNode_error h1
    | ok nd0' =>
      rw [h1] at h
      simp only [] at h
      cases h2 : walkNodes p i blobs map rest with
      | error e' =>
        rw [h2] at h
        injection h with h
        subst h
        exact ih h2
      | ok rest' => rw [h2] at h; exact Except.noConfusion h

/-! ## Overlay merge -/

theorem mergeOveraly_mem {l u : Tree} {n : Node}
    (h : n ∈ (mergeOveraly l u).nodes) : n ∈ l.nodes ∨ n ∈ u.nodes := by
  simp only [mergeOveraly, List.mem_append, List.mem_filter] at h
  rcases h with ⟨hu, -⟩ | ⟨hl, -⟩
  · exact Or.inr hu
  · exact Or.inl hl

/-! ## Parent ingest -/

theorem parentIngest_length :
    ∀ (bs : List BlobDesc) (m : BlobIdxMap) (t : List BlobContextM),
    ((parentIngest bs (m, t)).2).length = t.length + bs.length := by
  intro bs
  induction bs with
  | nil => intro m t; simp [parentIngest]
  | cons b rest ih =>
    intro m t
    simp only [parentIngest]
    rw [ih]
    simp
    omega

theorem parentIngest_bounded :
    ∀ (bs : List BlobDesc) (m : BlobIdxMap) (t : List BlobContextM),
    MapBounded m t.length →
    MapBounded (parentIngest bs (m, t)).1 ((parentIngest bs (m, t)).2).length := by
  intro bs
  induction bs with
  | nil => intro m t hb; simpa [parentIngest] using hb
  | cons b rest ih =>
    intro m t hb
    simp only [parentIngest]
    refine ih _ _ ?_
    intro k v hk
    simp only [mapLookup] at hk
    by_cases hkk : b.blob_id = k
    · rw [if_pos hkk] at hk
      cases hk
      simp
    · rw [if_neg hkk] at hk
      have := hb k v hk
      simp
      omega

theorem parentIngest_lookup_ne :
    ∀ (bs : List BlobDesc) (m : BlobIdxMap) (t : List BlobContextM)
    (k : String), (∀ b ∈ bs, b.blob_id ≠ k) →
    mapLookup (parentIngest bs (m, t)).1 k = mapLookup m k := by
  intro bs
  induction bs with
  | nil => intro m t k _; simp [parentIngest]
  | cons b rest ih =>
    intro m t k hne
    simp only [parentIngest]
    rw [ih _ _ _ (fun b' hb' => hne b' (List.mem_cons_of_mem b hb'))]
    simp only [mapLookup]
    rw [if_neg (hne b (List.mem_cons_self b rest))]

theorem parentIngest_inv2 :
    ∀ (bs : List BlobDesc) (m : BlobIdxMap) (t : List BlobContextM),
    (bs.map (fun b => b.blob_id)).Nodup →
    (∀ b ∈ bs, ∀ bc ∈ t, bc.blob_id ≠ b.blob_id) →
    TableNodupInv t m →
    TableNodupInv (parentIngest bs (m, t)).2 (parentIngest bs (m, t)).1 := by
  intro bs
  induction bs with
  | nil => intro m t _ _ hinv; simpa [parentIngest] using hinv
  | cons b rest ih =>
    intro m t hnd hne hinv
    simp only [parentIngest]
    have hnd' : (rest.map (fun b => b.blob_id)).Nodup :=
      (List.nodup_cons.mp (by simpa using hnd)).2
    have hbid : b.blob_id ∉ rest.map (fun b => b.blob_id) :=
      (List.nodup_cons.mp (by simpa using hnd)).1
    refine ih _ _ hnd' ?_ ?_
    · intro b' hb' bc hbc
      rcases List.mem_append.mp hbc with hmem | hmem
      · exact hne b' (List.mem_cons_of_mem b hb') bc hmem
      · have : bc = blobCtxFrom b := by simpa using hmem
        subst this
        show (blobCtxFrom b).blob_id ≠ b'.blob_id
        intro hcontra
        apply hbid
        rw [List.mem_map]
        exact ⟨b', hb', by rw [← hcontra]; rfl⟩
    · constructor
      · rw [List.map_append]
        rw [List.nodup_append]
        refine ⟨hinv.1, by simp, ?_⟩
        intro x hx
        simp only [List.map_cons, List.map_nil, List.mem_singleton]
        intro hxb
        rw [List.mem_map] at hx
        obtain ⟨bc, hbc, hbcid⟩ := hx
        have := hne b (List.mem_cons_self b rest) bc hbc
        apply this
        rw [hbcid, hxb]
        rfl
      · intro bc hbc
        rcases List.mem_append.mp hbc with hmem | hmem
        · exact mapLookup_cons_isSome (hinv.2 bc hmem)
        · have : bc = blobCtxFrom b := by simpa using hmem
          subst this
          simp [mapLookup, blobCtxFrom]

/-! ## Id tracking without rewrites (for the duplicate-id analysis) -/

theorem applyIdAndOverrides_id {b : BlobDesc} {tf : Bool} {pid : String}
    {osz : Option Nat} {otd : Option Digest} {otsz : Option Nat} :
    (applyIdAndOverrides b true tf pid none osz otd otsz).blob_id =
      b.blob_id := by
  cases osz <;> cases otd <;> cases otsz <;>
    cases hsep : b.separate <;>
      simp [applyIdAndOverrides, hsep, blobCtxFrom]

theorem processBlob_ok_id {ctx : BuildContextM} {dict : List String}
    {bs : Option (List Nat)} {btd : Option (List String)}
    {bts : Option (List Nat)} {i : Nat} {pid : String} {tf : Bool}
    {st st' : LayerBlobState} {b : BlobDesc}
    (haccess : ctx.blob_accessible = true)
    (h : processBlob ctx dict none bs btd bts i pid tf st b = .ok st') :
    ∃ c, c.blob_id = b.blob_id ∧
      st'.table = (addIfVacant st.table st.map b.blob_id c).1 ∧
      st'.map = (addIfVacant st.table st.map b.blob_id c).2 := by
  unfold processBlob at h
  cases hc : chunkCheck st.csz b.chunk_size with
  | error e => rw [hc] at h; exact Except.noConfusion h
  | ok csz =>
    rw [hc] at h
    simp only [] at h
    cases hd : idMem dict b.blob_id with
    | true =>
      simp only [hd, if_true] at h
      injection h with h
      subst h
      exact ⟨blobCtxFrom b, rfl, rfl, rfl⟩
    | false =>
      simp only [hd, Bool.false_eq_true, if_false] at h
      cases ha : st.added with
      | true => simp only [ha, if_true] at h; exact Except.noConfusion h
      | false =>
        simp only [ha, Bool.false_eq_true, if_false] at h
        rw [getDigestFromList_none] at h
        simp only [] at h
        cases hg2 : getSizeFromList bs i with
        | error e => rw [hg2] at h; exact Except.noConfusion h
        | ok osz =>
          rw [hg2] at h
          simp only [] at h
          cases hg3 : getDigestFromList btd i with
          | error e => rw [hg3] at h; exact Except.noConfusion h
          | ok otd =>
            rw [hg3] at h
            simp only [] at h
            cases hg4 : getSizeFromList bts i with
            | error e => rw [hg4] at h; exact Except.noConfusion h
            | ok otsz =>
              rw [hg4] at h
              simp only [] at h
              injection h with h
              subst h
              refine ⟨applyIdAndOverrides b ctx.blob_accessible tf pid
                none osz otd otsz, ?_, rfl, rfl⟩
              rw [haccess]
              exact applyIdAndOverrides_id

theorem addIfVacant_inv2 {t : List BlobContextM} {m : BlobIdxMap}
    {k : String} {c : BlobContextM} (hid : c.blob_id = k)
    (hinv : TableNodupInv t m) :
    TableNodupInv (addIfVacant t m k c).1 (addIfVacant t m k c).2 := by
  rcases addIfVacant_cases t m k c with ⟨hn, he⟩ | ⟨_, he⟩
  · rw [he]
    constructor
    · rw [List.map_append, List.nodup_append]
      refine ⟨hinv.1, by simp, ?_⟩
      intro x hx
      simp only [List.map_cons, List.map_nil, List.mem_singleton]
      intro hxc
      rw [List.mem_map] at hx
      obtain ⟨bc, hbc, hbcid⟩ := hx
      have hsome := hinv.2 bc hbc
      rw [hbcid, hxc, hid] at hsome
      rw [hn] at hsome
      simp at hsome
    · intro bc hbc
      rcases List.mem_append.mp hbc with hmem | hmem
      · exact mapLookup_cons_isSome (hinv.2 bc hmem)
      · have : bc = c := by simpa using hmem
        subst this
        rw [hid]
        simp [mapLookup]
  · rw [he]
    exact hinv

theorem processBlobs_inv2 {ctx : BuildContextM} {dict : List String}
    {bs : Option (List Nat)} {btd : Option (List String)}
    {bts : Option (List Nat)} {i : Nat} {pid : String} {tf : Bool}
    (haccess : ctx.blob_accessible = true) :
    ∀ {blobs : List BlobDesc} {st st' : LayerBlobState},
    processBlobs ctx dict none bs btd bts i pid tf st blobs = .ok st' →
    TableNodupInv st.table st.map → TableNodupInv st'.table st'.map := by
  intro blobs
  induction blobs with
  | nil =>
    intro st st' h hinv
    simp only [processBlobs] at h
    injection h with h
    subst h
    exact hinv
  | cons b rest ih =>
    intro st st' h hinv
    simp only [processBlobs] at h
    cases hp : processBlob ctx dict none bs btd bts i pid tf st b with
    | error e => rw [hp] at h; exact Except.noConfusion h
    | ok st1 =>
      rw [hp] at h
      obtain ⟨c, hid, ht, hm⟩ := processBlob_ok_id haccess hp
      refine ih h ?_
      rw [ht, hm]
      exact addIfVacant_inv2 hid hinv

/-! ## Digest-list access extraction -/

theorem processBlob_nondict_digest_ok {ctx : BuildContextM}
    {dict : List String} {bd : Option (List String)} {bs : Option (List Nat)}
    {btd : Option (List String)} {bts : Option (List Nat)}
    {i : Nat} {pid : String} {tf : Bool} {st st' : LayerBlobState}
    {b : BlobDesc}
    (h : processBlob ctx dict bd bs btd bts i pid tf st b = .ok st')
    (hd : idMem dict b.blob_id = false) :
    ∃ od, getDigestFromList bd i = .ok od := by
  unfold processBlob at h
  cases hc : chunkCheck st.csz b.chunk_size with
  | error e => rw [hc] at h; exact Except.noConfusion h
  | ok csz =>
    rw [hc] at h
    simp only [] at h
    simp only [hd, Bool.false_eq_true, if_false] at h
    cases ha : st.added with
    | true => simp only [ha, if_true] at h; exact Except.noConfusion h
    | false =>
      simp only [ha, Bool.false_eq_true, if_false] at h
      cases hg1 : getDigestFromList bd i with
      | error e => rw [hg1] at h; exact Except.noConfusion h
      | ok od => exact ⟨od, rfl⟩

theorem processBlobs_nondict_digest_ok {ctx : BuildContextM}
    {dict : List String} {bd : Option (List String)} {bs : Option (List Nat)}
    {btd : Option (List String)} {bts : Option (List Nat)}
    {i : Nat} {pid : String} {tf : Bool} :
    ∀ {blobs : List BlobDesc} {st st' : LayerBlobState},
    processBlobs ctx dict bd bs btd bts i pid tf st blobs = .ok st' →
    1 ≤ countNonDict dict blobs →
    ∃ od, getDigestFromList bd i = .ok od := by
  intro blobs
  induction blobs with
  | nil =>
    intro st st' _ hcount
    rw [countNonDict_nil] at hcount
    omega
  | cons b rest ih =>
    intro st st' h hcount
    simp only [processBlobs] at h
    cases hp : processBlob ctx dict bd bs btd bts i pid tf st b with
    | error e => rw [hp] at h; exact Except.noConfusion h
    | ok st1 =>
      rw [hp] at h
      cases hd : idMem dict b.blob_id with
      | false => exact processBlob_nondict_digest_ok hp hd
      | true =>
        refine ih h ?_
        rw [countNonDict_cons, hd] at hcount
        simpa using hcount

theorem processBlobs_not_hexDecode {ctx : BuildContextM} {dict : List String}
    {bs : Option (List Nat)} {bts : Option (List Nat)}
    {i : Nat} {pid : String} {tf : Bool} :
    ∀ {blobs : List BlobDesc} {st : LayerBlobState},
    processBlobs ctx dict none bs none bts i pid tf st blobs ≠
      .error .hexDecode := by
  intro blobs
  induction blobs with
  | nil =>
    intro st h
    simp only [processBlobs] at h
    exact Except.noConfusion h
  | cons b rest ih =>
    intro st h
    simp only [processBlobs] at h
    cases hp : processBlob ctx dict none bs none bts i pid tf st b with
    | error e =>
      rw [hp] at h
      injection h with h
      subst h
      exact processBlob_not_hexDecode hp
    | ok st1 =>
      rw [hp] at h
      exact ih h

/-! ## One source layer -/

theorem processLayer_ok {ctx : BuildContextM} {dict : List String}
    {bd : Option (List String)} {bs : Option (List Nat)}
    {btd : Option (List String)} {bts : Option (List Nat)}
    {p i : Nat} {st st' : MergeState} {src : SourceM}
    (h : processLayer ctx dict bd bs btd bts p i st src = .ok st') :
    ∃ bst ns,
      processBlobs ctx dict bd bs btd bts i src.path_blob_id
        (st.tarfs || (st.cfg.getD src.rs.meta).is_tarfs_mode)
        { table := st.table, map := st.map, csz := st.csz, added := false }
        src.rs.blobs = .ok bst ∧
      walkNodes p i src.rs.blobs bst.map src.rs.tree.nodes = .ok ns ∧
      st'.table = bst.table ∧ st'.map = bst.map ∧ st'.csz = bst.csz ∧
      st'.tarfs = (st.tarfs || (st.cfg.getD src.rs.meta).is_tarfs_mode) ∧
      st'.cfg = some (st.cfg.getD src.rs.meta) ∧ st'.fsv = src.rs.version ∧
      ((st.tree = none ∧ st'.tree = some ⟨ns⟩) ∨
        (∃ t, st.tree = some t ∧ st'.tree = some (mergeOveraly t ⟨ns⟩))) := by
  unfold processLayer at h
  cases hcc : compatibleCfg (st.cfg.getD src.rs.meta) src.rs.meta with
  | false => simp only [hcc, Bool.not_false, if_true] at h; exact Except.noConfusion h
  | true =>
    simp only [hcc, Bool.not_true, Bool.false_eq_true, if_false] at h
    cases hpb : processBlobs ctx dict bd bs btd bts i src.path_blob_id
        (st.tarfs || (st.cfg.getD src.rs.meta).is_tarfs_mode)
        { table := st.table, map := st.map, csz := st.csz, added := false }
        src.rs.blobs with
    | error e => rw [hpb] at h; exact Except.noConfusion h
    | ok bst =>
      rw [hpb] at h
      simp only [] at h
      cases hwn : walkNodes p i src.rs.blobs bst.map src.rs.tree.nodes with
      | error e => rw [hwn] at h; exact Except.noConfusion h
      | ok ns =>
        rw [hwn] at h
        simp only [] at h
        refine ⟨bst, ns, rfl, hwn, ?_⟩
        cases htr : st.tree with
        | none =>
          rw [htr] at h
          simp only [] at h
          injection h with h
          subst h
          exact ⟨rfl, rfl, rfl, rfl, rfl, rfl, Or.inl ⟨rfl, rfl⟩⟩
        | some t =>
          rw [htr] at h
          simp only [] at h
          injection h with h
          subst h
          exact ⟨rfl, rfl, rfl, rfl, rfl, rfl, Or.inr ⟨t, rfl, rfl⟩⟩

theorem processLayer_no_blobConstraint {ctx : BuildContextM}
    {dict : List String} {bd : Option (List String)} {bs : Option (List Nat)}
    {btd : Option (List String)} {bts : Option (List Nat)}
    {p i : Nat} {st : MergeState} {src : SourceM}
    (hcount : countNonDict dict src.rs.blobs ≤ 1) :
    processLayer ctx dict bd bs btd bts p i st src ≠
      .error .blobConstraint := by
  intro h
  unfold processLayer at h
  cases hcc : compatibleCfg (st.cfg.getD src.rs.meta) src.rs.meta with
  | false =>
    simp only [hcc, Bool.not_false, if_true] at h
    injection h with h
    cases h
  | true =>
    simp only [hcc, Bool.not_true, Bool.false_eq_true, if_false] at h
    cases hpb : processBlobs ctx dict bd bs btd bts i src.path_blob_id
        (st.tarfs || (st.cfg.getD src.rs.meta).is_tarfs_mode)
        { table := st.table, map := st.map, csz := st.csz, added := false }
        src.rs.blobs with
    | error e =>
      rw [hpb] at h
      injection h with h
      subst h
      exact processBlobs_no_blobConstraint (fun _ => hcount)
        (fun htrue => by cases htrue) hpb
    | ok bst =>
      rw [hpb] at h
      simp only [] at h
      cases hwn : walkNodes p i src.rs.blobs bst.map src.rs.tree.nodes with
      | error e =>
        rw [hwn] at h
        injection h with h
        subst h
        rcases walkNodes_error hwn with h' | h' <;> cases h'
      | ok ns =>
        rw [hwn] at h
        simp only [] at h
        cases htr : st.tree <;> rw [htr] at h <;> simp only [] at h <;>
          exact Except.noConfusion h

theorem processLayer_not_hexDecode {ctx : BuildContextM}
    {dict : List String} {bs : Option (List Nat)} {bts : Option (List Nat)}
    {p i : Nat} {st : MergeState} {src : SourceM} :
    processLayer ctx dict none bs none bts p i st src ≠
      .error .hexDecode := by
  intro h
  unfold processLayer at h
  cases hcc : compatibleCfg (st.cfg.getD src.rs.meta) src.rs.meta with
  | false =>
    simp only [hcc, Bool.not_false, if_true] at h
    injection h with h
    cases h
  | true =>
    simp only [hcc, Bool.not_true, Bool.false_eq_true, if_false] at h
    cases hpb : processBlobs ctx dict none bs none bts i src.path_blob_id
        (st.tarfs || (st.cfg.getD src.rs.meta).is_tarfs_mode)
        { table := st.table, map := st.map, csz := st.csz, added := false }
        src.rs.blobs with
    | error e =>
      rw [hpb] at h
      injection h with h
      subst h
      exact processBlobs_not_hexDecode hpb
    | ok bst =>
      rw [hpb] at h
      simp only [] at h
      cases hwn : walkNodes p i src.rs.blobs bst.map src.rs.tree.nodes with
      | error e =>
        rw [hwn] at h
        injection h with h
        subst h
        rcases walkNodes_error hwn with h' | h' <;> cases h'
      | ok ns =>
        rw [hwn] at h
        simp only [] at h
        cases htr : st.tree <;> rw [htr] at h <;> simp only [] at h <;>
          exact Except.noConfusion h

theorem processLayer_StInv {ctx : BuildContextM} {dict : List String}
    {bd : Option (List String)} {bs : Option (List Nat)}
    {btd : Option (List String)} {bts : Option (List Nat)}
    {p i : Nat} {st st' : MergeState} {src : SourceM}
    (h : processLayer ctx dict bd bs btd bts p i st src = .ok st')
    (hmap : MapBounded st.map st.table.length)
    (htree : NodesBounded (stTreeNodes st) st.table.length) :
    MapBounded st'.map st'.table.length ∧
    NodesBounded (stTreeNodes st') st'.table.length := by
  obtain ⟨bst, ns, hpb, hwn, ht, hm, -, -, -, -, htrees⟩ := processLayer_ok h
  obtain ⟨hb1, hlen⟩ := processBlobs_bounded hpb hmap
  have hmem : ∀ b ∈ src.rs.blobs, (mapLookup bst.map b.blob_id).isSome :=
    processBlobs_mem_isSome hpb
  have hns : ∀ nd ∈ ns, ∀ c ∈ nd.chunks, c.blob_index < bst.table.length :=
    fun nd hnd => (walkNodes_ok hwn hb1 hmem nd hnd).1
  constructor
  · rw [ht, hm]; exact hb1
  · rw [ht]
    intro nd hnd c hc
    rcases htrees with ⟨-, hsome⟩ | ⟨t, hsome0, hsome⟩
    · rw [stTreeNodes, hsome] at hnd
      exact hns nd hnd c hc
    · rw [stTreeNodes, hsome] at hnd
      rcases mergeOveraly_mem hnd with hl | hu
      · have : nd ∈ stTreeNodes st := by rw [stTreeNodes, hsome0]; exact hl
        exact lt_of_lt_of_le (htree nd this c hc) hlen
      · exact hns nd hu c hc

theorem walkNode_layerIdx {p i : Nat} {blobs : List BlobDesc}
    {map : BlobIdxMap} {nd nd' : Node}
    (h : walkNode p i blobs map nd = .ok nd') :
    nd'.layer_idx = i + p ∧ p + i ≤ 65535 := by
  unfold walkNode at h
  cases hc : rewriteChunks blobs map nd.chunks with
  | error e => rw [hc] at h; exact Except.noConfusion h
  | ok cs =>
    rw [hc] at h
    simp only [] at h
    by_cases h1 : 65535 < i
    · rw [if_pos h1] at h; exact Except.noConfusion h
    · rw [if_neg h1] at h
      by_cases h2 : 65535 < p + i
      · rw [if_pos h2] at h; exact Except.noConfusion h
      · rw [if_neg h2] at h
        injection h with h
        subst h
        exact ⟨rfl, by omega⟩

theorem walkNodes_layerIdx {p i : Nat} {blobs : List BlobDesc}
    {map : BlobIdxMap} :
    ∀ {nds nds' : List Node}, walkNodes p i blobs map nds = .ok nds' →
    ∀ nd' ∈ nds', nd'.layer_idx = i + p ∧ p + i ≤ 65535 := by
  intro nds
  induction nds with
  | nil =>
    intro nds' h nd' hnd
    simp only [walkNodes] at h
    injection h with h
    subst h
    cases hnd
  | cons nd0 rest ih =>
    intro nds' h nd' hnd
    simp only [walkNodes] at h
    cases h1 : walkNode p i blobs map nd0 with
    | error e => rw [h1] at h; exact Except.noConfusion h
    | ok nd0' =>
      rw [h1] at h
      simp only [] at h
      cases h2 : walkNodes p i blobs map rest with
      | error e => rw [h2] at h; exact Except.noConfusion h
      | ok rest' =>
        rw [h2] at h
        injection h with h
        subst h
        rcases List.mem_cons.mp hnd with rfl | hmem
        · exact walkNode_layerIdx h1
        · exact ih h2 nd' hmem

theorem processLayer_layerIdx {ctx : BuildContextM} {dict : List String}
    {bd : Option (List String)} {bs : Option (List Nat)}
    {btd : Option (List String)} {bts : Option (List Nat)}
    {p i : Nat} {st st' : MergeState} {src : SourceM} {base : List Node}
    (h : processLayer ctx dict bd bs btd bts p i st src = .ok st')
    (hinv : ∀ nd ∈ stTreeNodes st, nd ∈ base ∨
      ∃ j, j < i ∧ p + j ≤ 65535 ∧ nd.layer_idx = p + j) :
    ∀ nd ∈ stTreeNodes st', nd ∈ base ∨
      ∃ j, j < i + 1 ∧ p + j ≤ 65535 ∧ nd.layer_idx = p + j := by
  obtain ⟨bst, ns, hpb, hwn, -, -, -, -, -, -, htrees⟩ := processLayer_ok h
  have hns : ∀ nd ∈ ns, nd ∈ base ∨
      ∃ j, j < i + 1 ∧ p + j ≤ 65535 ∧ nd.layer_idx = p + j := by
    intro nd hnd
    obtain ⟨hidx, hle⟩ := walkNodes_layerIdx hwn nd hnd
    exact Or.inr ⟨i, by omega, hle, by rw [hidx]; omega⟩
  intro nd hnd
  rcases htrees with ⟨-, hsome⟩ | ⟨t, hsome0, hsome⟩
  · rw [stTreeNodes, hsome] at hnd
    exact hns nd hnd
  · rw [stTreeNodes, hsome] at hnd
    rcases mergeOveraly_mem hnd with hl | hu
    · have : nd ∈ stTreeNodes st := by rw [stTreeNodes, hsome0]; exact hl
      rcases hinv nd this with hb | ⟨j, hj, hjle, hidx⟩
      · exact Or.inl hb
      · exact Or.inr ⟨j, by omega, hjle, hidx⟩
    · exact hns nd hu

/-! ## The layer loop -/

theorem mergeLayers_cons_ok {ctx : BuildContextM} {dict : List String}
    {bd : Option (List String)} {bs : Option (List Nat)}
    {btd : Option (List String)} {bts : Option (List Nat)}
    {p i : Nat} {st st' : MergeState} {s : SourceM} {rest : List SourceM}
    (h : mergeLayers ctx dict bd bs btd bts p i st (s :: rest) = .ok st') :
    ∃ st1, processLayer ctx dict bd bs btd bts p i st s = .ok st1 ∧
      mergeLayers ctx dict bd bs btd bts p (i + 1) st1 rest = .ok st' := by
  simp only [mergeLayers] at h
  cases hp : processLayer ctx dict bd bs btd bts p i st s with
  | error e => rw [hp] at h; exact Except.noConfusion h
  | ok st1 =>
    rw [hp] at h
    exact ⟨st1, rfl, h⟩

theorem mergeLayers_StInv {ctx : BuildContextM} {dict : List String}
    {bd : Option (List String)} {bs : Option (List Nat)}
    {btd : Option (List String)} {bts : Option (List Nat)} {p : Nat} :
    ∀ {ss : List SourceM} {i : Nat} {st st' : MergeState},
    mergeLayers ctx dict bd bs btd bts p i st ss = .ok st' →
    MapBounded st.map st.table.length →
    NodesBounded (stTreeNodes st) st.table.length →
    MapBounded st'.map st'.table.length ∧
    NodesBounded (stTreeNodes st') st'.table.length := by
  intro ss
  induction ss with
  | nil =>
    intro i st st' h h1 h2
    simp only [mergeLayers] at h
    injection h with h
    subst h
    exact ⟨h1, h2⟩
  | cons s rest ih =>
    intro i st st' h h1 h2
    obtain ⟨st1, hp, hrest⟩ := mergeLayers_cons_ok h
    obtain ⟨h1', h2'⟩ := processLayer_StInv hp h1 h2
    exact ih hrest h1' h2'

theorem mergeLayers_layerIdx {ctx : BuildContextM} {dict : List String}
    {bd : Option (List String)} {bs : Option (List Nat)}
    {btd : Option (List String)} {bts : Option (List Nat)} {p : Nat}
    {base : List Node} :
    ∀ {ss : List SourceM} {i : Nat} {st st' : MergeState},
    mergeLayers ctx dict bd bs btd bts p i st ss = .ok st' →
    (∀ nd ∈ stTreeNodes st, nd ∈ base ∨
      ∃ j, j < i ∧ p + j ≤ 65535 ∧ nd.layer_idx = p + j) →
    ∀ nd ∈ stTreeNodes st', nd ∈ base ∨
      ∃ j, j < i + ss.length ∧ p + j ≤ 65535 ∧ nd.layer_idx = p + j := by
  intro ss
  induction ss with
  | nil =>
    intro i st st' h hinv nd hnd
    simp only [mergeLayers] at h
    injection h with h
    subst h
    rcases hinv nd hnd with hb | ⟨j, hj, hjle, hidx⟩
    · exact Or.inl hb
    · exact Or.inr ⟨j, by simpa using hj, hjle, hidx⟩
  | cons s rest ih =>
    intro i st st' h hinv nd hnd
    obtain ⟨st1, hp, hrest⟩ := mergeLayers_cons_ok h
    have hinv1 := processLayer_layerIdx hp hinv
    rcases ih hrest hinv1 nd hnd with hb | ⟨j, hj, hjle, hidx⟩
    · exact Or.inl hb
    · refine Or.inr ⟨j, ?_, hjle, hidx⟩
      simp only [List.length_cons]
      omega

theorem mergeLayers_csz {ctx : BuildContextM} {dict : List String}
    {bd : Option (List String)} {bs : Option (List Nat)}
    {btd : Option (List String)} {bts : Option (List Nat)} {p : Nat} :
    ∀ {ss : List SourceM} {i : Nat} {st st' : MergeState},
    mergeLayers ctx dict bd bs btd bts p i st ss = .ok st' →
    (∀ x, st.csz = some x → st'.csz = some x) ∧
    (∀ s ∈ ss, ∀ b ∈ s.rs.blobs, st'.csz = some b.chunk_size) := by
  intro ss
  induction ss with
  | nil =>
    intro i st st' h
    simp only [mergeLayers] at h
    injection h with h
    subst h
    exact ⟨fun x hx => hx, fun s hs => absurd hs (List.not_mem_nil s)⟩
  | cons s rest ih =>
    intro i st st' h
    obtain ⟨st1, hp, hrest⟩ := mergeLayers_cons_ok h
    obtain ⟨bst, ns, hpb, -, -, -, hcsz1, -, -, -, -⟩ := processLayer_ok hp
    obtain ⟨hpers0, hall0⟩ := processBlobs_csz hpb
    obtain ⟨hpers, hall⟩ := ih hrest
    refine ⟨?_, ?_⟩
    · intro x hx
      exact hpers x (by rw [hcsz1]; exact hpers0 x hx)
    · intro s' hs' b hb
      rcases List.mem_cons.mp hs' with rfl | hmem
      · exact hpers _ (by rw [hcsz1]; exact hall0 b hb)
      · exact hall s' hmem b hb

theorem mergeLayers_tarfs_sticky {ctx : BuildContextM} {dict : List String}
    {bd : Option (List String)} {bs : Option (List Nat)}
    {btd : Option (List String)} {bts : Option (List Nat)} {p : Nat} :
    ∀ {ss : List SourceM} {i : Nat} {st st' : MergeState},
    mergeLayers ctx dict bd bs btd bts p i st ss = .ok st' →
    st.tarfs = true → st'.tarfs = true := by
  intro ss
  induction ss with
  | nil =>
    intro i st st' h ht
    simp only [mergeLayers] at h
    injection h with h
    subst h
    exact ht
  | cons s rest ih =>
    intro i st st' h ht
    obtain ⟨st1, hp, hrest⟩ := mergeLayers_cons_ok h
    obtain ⟨-, -, -, -, -, -, -, htf, -, -, -⟩ := processLayer_ok hp
    exact ih hrest (by rw [htf, ht]; simp)

theorem mergeLayers_tarfs_first {ctx : BuildContextM} {dict : List String}
    {bd : Option (List String)} {bs : Option (List Nat)}
    {btd : Option (List String)} {bts : Option (List Nat)} {p i : Nat}
    {st st' : MergeState} {s : SourceM} {rest : List SourceM}
    (h : mergeLayers ctx dict bd bs btd bts p i st (s :: rest) = .ok st')
    (htf : (st.cfg.getD s.rs.meta).is_tarfs_mode = true) :
    st'.tarfs = true := by
  obtain ⟨st1, hp, hrest⟩ := mergeLayers_cons_ok h
  obtain ⟨-, -, -, -, -, -, -, htf1, -, -, -⟩ := processLayer_ok hp
  refine mergeLayers_tarfs_sticky hrest ?_
  rw [htf1, htf]
  simp

theorem mergeLayers_ok_count {ctx : BuildContextM} {dict : List String}
    {bd : Option (List String)} {bs : Option (List Nat)}
    {btd : Option (List String)} {bts : Option (List Nat)} {p : Nat} :
    ∀ {ss : List SourceM} {i : Nat} {st st' : MergeState},
    mergeLayers ctx dict bd bs btd bts p i st ss = .ok st' →
    ∀ s ∈ ss, countNonDict dict s.rs.blobs ≤ 1 := by
  intro ss
  induction ss with
  | nil => intro i st st' _ s hs; cases hs
  | cons s0 rest ih =>
    intro i st st' h s hs
    obtain ⟨st1, hp, hrest⟩ := mergeLayers_cons_ok h
    rcases List.mem_cons.mp hs with rfl | hmem
    · obtain ⟨bst, ns, hpb, -, -, -, -, -, -, -, -⟩ := processLayer_ok hp
      exact (processBlobs_count hpb).1 rfl
    · exact ih hrest s hmem

theorem mergeLayers_no_blobConstraint {ctx : BuildContextM}
    {dict : List String} {bd : Option (List String)} {bs : Option (List Nat)}
    {btd : Option (List String)} {bts : Option (List Nat)} {p : Nat} :
    ∀ {ss : List SourceM} {i : Nat} {st : MergeState},
    (∀ s ∈ ss, countNonDict dict s.rs.blobs ≤ 1) →
    mergeLayers ctx dict bd bs btd bts p i st ss ≠
      .error .blobConstraint := by
  intro ss
  induction ss with
  | nil =>
    intro i st _ h
    simp only [mergeLayers] at h
    exact Except.noConfusion h
  | cons s rest ih =>
    intro i st hcount h
    simp only [mergeLayers] at h
    cases hp : processLayer ctx dict bd bs btd bts p i st s with
    | error e =>
      rw [hp] at h
      injection h with h
      subst h
      exact processLayer_no_blobConstraint
        (hcount s (List.mem_cons_self s rest)) hp
    | ok st1 =>
      rw [hp] at h
      exact ih (fun s' hs' => hcount s' (List.mem_cons_of_mem s hs')) h

theorem mergeLayers_not_hexDecode {ctx : BuildContextM} {dict : List String}
    {bs : Option (List Nat)} {bts : Option (List Nat)} {p : Nat} :
    ∀ {ss : List SourceM} {i : Nat} {st : MergeState},
    mergeLayers ctx dict none bs none bts p i st ss ≠ .error .hexDecode := by
  intro ss
  induction ss with
  | nil =>
    intro i st h
    simp only [mergeLayers] at h
    exact Except.noConfusion h
  | cons s rest ih =>
    intro i st h
    simp only [mergeLayers] at h
    cases hp : processLayer ctx dict none bs none bts p i st s with
    | error e =>
      rw [hp] at h
      injection h with h
      subst h
      exact processLayer_not_hexDecode hp
    | ok st1 =>
      rw [hp] at h
      exact ih h

theorem mergeLayers_ok_digest {ctx : BuildContextM} {dict : List String}
    {bd : Option (List String)} {bs : Option (List Nat)}
    {btd : Option (List String)} {bts : Option (List Nat)} {p : Nat} :
    ∀ {ss : List SourceM} {i : Nat} {st st' : MergeState},
    mergeLayers ctx dict bd bs btd bts p i st ss = .ok st' →
    ∀ j, (hj : j < ss.length) →
    1 ≤ countNonDict dict (ss.get ⟨j, hj⟩).rs.blobs →
    ∃ od, getDigestFromList bd (i + j) = .ok od := by
  intro ss
  induction ss with
  | nil => intro i st st' _ j hj; cases hj
  | cons s rest ih =>
    intro i st st' h j hj hcount
    obtain ⟨st1, hp, hrest⟩ := mergeLayers_cons_ok h
    cases j with
    | zero =>
      obtain ⟨bst, ns, hpb, -, -, -, -, -, -, -, -⟩ := processLayer_ok hp
      have := processBlobs_nondict_digest_ok hpb (by simpa using hcount)
      simpa using this
    | succ j' =>
      have hj' : j' < rest.length := by simpa using hj
      have := ih hrest j' hj' (by simpa using hcount)
      obtain ⟨od, hod⟩ := this
      refine ⟨od, ?_⟩
      rw [show i + (j' + 1) = (i + 1) + j' by omega]
      exact hod

theorem mergeLayers_ok_bound {ctx : BuildContextM} {dict : List String}
    {bd : Option (List String)} {bs : Option (List Nat)}
    {btd : Option (List String)} {bts : Option (List Nat)} {p : Nat} :
    ∀ {ss : List SourceM} {i : Nat} {st st' : MergeState},
    mergeLayers ctx dict bd bs btd bts p i st ss = .ok st' →
    ∀ j, (hj : j < ss.length) →
    (ss.get ⟨j, hj⟩).rs.tree.nodes ≠ [] →
    p + (i + j) ≤ 65535 := by
  intro ss
  induction ss with
  | nil => intro i st st' _ j hj; cases hj
  | cons s rest ih =>
    intro i st st' h j hj hne
    obtain ⟨st1, hp, hrest⟩ := mergeLayers_cons_ok h
    cases j with
    | zero =>
      obtain ⟨bst, ns, hpb, hwn, -, -, -, -, -, -, -⟩ := processLayer_ok hp
      simp only [List.get] at hne
      cases hnodes : s.rs.tree.nodes with
      | nil => exact absurd hnodes hne
      | cons nd0 r =>
        rw [hnodes] at hwn
        have := walkNodes_ok_nonempty hwn
        omega
    | succ j' =>
      have hj' : j' < rest.length := by simpa using hj
      have := ih hrest j' hj' (by simpa using hne)
      omega

theorem mergeLayers_inv2 {ctx : BuildContextM} {dict : List String}
    {bs : Option (List Nat)} {btd : Option (List String)}
    {bts : Option (List Nat)} {p : Nat}
    (haccess : ctx.blob_accessible = true) :
    ∀ {ss : List SourceM} {i : Nat} {st st' : MergeState},
    mergeLayers ctx dict none bs btd bts p i st ss = .ok st' →
    TableNodupInv st.table st.map → TableNodupInv st'.table st'.map := by
  intro ss
  induction ss with
  | nil =>
    intro i st st' h hinv
    simp only [mergeLayers] at h
    injection h with h
    subst h
    exact hinv
  | cons s rest ih =>
    intro i st st' h hinv
    obtain ⟨st1, hp, hrest⟩ := mergeLayers_cons_ok h
    obtain ⟨bst, ns, hpb, -, ht, hm, -, -, -, -, -⟩ := processLayer_ok hp
    refine ih hrest ?_
    rw [ht, hm]
    exact processBlobs_inv2 haccess hpb hinv

/-! ## Inversion of the whole merge -/

theorem exceptIsOk_error {ε α : Type} {e : ε} :
    exceptIsOk (α := α) (.error e) = false := rfl

theorem exceptIsOk_iff {ε α : Type} {x : Except ε α} :
    exceptIsOk x = true ↔ ∃ a, x = .ok a := by
  cases x with
  | ok a => simp [exceptIsOk]
  | error e => simp [exceptIsOk]

theorem mergeM_ok_inv {ctx : BuildContextM} {parent : Option RafsSuperM}
    {sources : List SourceM} {bd : Option (List String)}
    {bs : Option (List Nat)} {btd : Option (List String)}
    {bts : Option (List Nat)} {cd : Option RafsSuperM} {out : MergeOutput}
    (h : mergeM ctx parent sources bd bs btd bts cd = .ok out) :
    ∃ st, mergeLayers ctx (dictIds cd) bd bs btd bts
        (parentBlobs parent).length 0 (initState ctx parent cd) sources =
        .ok st ∧
      out.blobTable = st.table ∧ st.tree = some out.tree ∧
      out.chunk_size = st.csz.getD ctx.chunk_size ∧
      (st.tarfs = true →
        (parentBlobs parent).length = 0 ∧ dictIds cd = []) := by
  unfold mergeM at h
  by_cases h0 : sources.isEmpty
  · rw [if_pos h0] at h; exact Except.noConfusion h
  · rw [if_neg h0] at h
    by_cases h1 : !arityOk bd sources.length
    · rw [if_pos h1] at h; exact Except.noConfusion h
    · rw [if_neg h1] at h
      by_cases h2 : !arityOk bs sources.length
      · rw [if_pos h2] at h; exact Except.noConfusion h
      · rw [if_neg h2] at h
        by_cases h3 : !arityOk btd sources.length
        · rw [if_pos h3] at h; exact Except.noConfusion h
        · rw [if_neg h3] at h
          by_cases h4 : !arityOk bts sources.length
          · rw [if_pos h4] at h; exact Except.noConfusion h
          · rw [if_neg h4] at h
            simp only [] at h
            cases hml : mergeLayers ctx (dictIds cd) bd bs btd bts
                (parentBlobs parent).length 0 (initState ctx parent cd)
                sources with
            | error e =>
              rw [show (initState ctx parent cd) =
                { tree := parent.map (fun p => p.tree)
                  table := (parentIngest (parentBlobs parent) ([], [])).2
                  map := (parentIngest (parentBlobs parent) ([], [])).1
                  csz := none
                  cfg := cd.map (fun d => d.meta)
                  tarfs := ctx.tarfs_conversion
                  fsv := .v6 } from rfl] at hml
              rw [hml] at h
              exact Except.noConfusion h
            | ok st =>
              rw [show (initState ctx parent cd) =
                { tree := parent.map (fun p => p.tree)
                  table := (parentIngest (parentBlobs parent) ([], [])).2
                  map := (parentIngest (parentBlobs parent) ([], [])).1
                  csz := none
                  cfg := cd.map (fun d => d.meta)
                  tarfs := ctx.tarfs_conversion
                  fsv := .v6 } from rfl] at hml
              rw [hml] at h
              simp only [] at h
              refine ⟨st, rfl, ?_⟩
              cases hst : st.tarfs with
              | false =>
                rw [hst] at h
                simp only [Bool.false_eq_true, if_false] at h
                unfold finalizeMerge at h
                cases htr : st.tree with
                | none => rw [htr] at h; exact Except.noConfusion h
                | some t =>
                  rw [htr] at h
                  injection h with h
                  subst h
                  exact ⟨rfl, rfl, rfl, fun hx => Bool.noConfusion hx⟩
              | true =>
                rw [hst] at h
                simp only [if_true] at h
                by_cases hp : 0 < (parentBlobs parent).length
                · rw [if_pos hp] at h; exact Except.noConfusion h
                · rw [if_neg hp] at h
                  by_cases hd : !(dictIds cd).isEmpty
                  · rw [if_pos hd] at h; exact Except.noConfusion h
                  · rw [if_neg hd] at h
                    unfold finalizeMerge at h
                    cases htr : st.tree with
                    | none => rw [htr] at h; exact Except.noConfusion h
                    | some t =>
                      rw [htr] at h
                      injection h with h
                      subst h
                      refine ⟨rfl, rfl, rfl, fun _ => ⟨by omega, ?_⟩⟩
                      simp only [Bool.not_eq_true'] at hd
                      exact List.isEmpty_iff.mp (by simpa using hd)

theorem mergeM_error_inv {ctx : BuildContextM} {parent : Option RafsSuperM}
    {sources : List SourceM} {bd : Option (List String)}
    {bs : Option (List Nat)} {btd : Option (List String)}
    {bts : Option (List Nat)} {cd : Option RafsSuperM} {e : MergeError}
    (h : mergeM ctx parent sources bd bs btd bts cd = .error e) :
    e = .emptySources ∨ e = .digestArity ∨ e = .sizeArity ∨
    e = .tocDigestArity ∨ e = .tocSizeArity ∨ e = .tarfsParent ∨
    e = .tarfsDict ∨
    mergeLayers ctx (dictIds cd) bd bs btd bts
      (parentBlobs parent).length 0 (initState ctx parent cd) sources =
      .error e := by
  unfold mergeM at h
  by_cases h0 : sources.isEmpty
  · rw [if_pos h0] at h
    injection h with h
    exact Or.inl h.symm
  · rw [if_neg h0] at h
    by_cases h1 : !arityOk bd sources.length
    · rw [if_pos h1] at h
      injection h with h
      exact Or.inr (Or.inl h.symm)
    · rw [if_neg h1] at h
      by_cases h2 : !arityOk bs sources.length
      · rw [if_pos h2] at h
        injection h with h
        exact Or.inr (Or.inr (Or.inl h.symm))
      · rw [if_neg h2] at h
        by_cases h3 : !arityOk btd sources.length
        · rw [if_pos h3] at h
          injection h with h
          exact Or.inr (Or.inr (Or.inr (Or.inl h.symm)))
        · rw [if_neg h3] at h
          by_cases h4 : !arityOk bts sources.length
          · rw [if_pos h4] at h
            injection h with h
            exact Or.inr (Or.inr (Or.inr (Or.inr (Or.inl h.symm))))
          · rw [if_neg h4] at h
            simp only [] at h
            cases hml : mergeLayers ctx (dictIds cd) bd bs btd bts
                (parentBlobs parent).length 0 (initState ctx parent cd)
                sources with
            | error e' =>
              rw [show (initState ctx parent cd) =
                { tree := parent.map (fun p => p.tree)
                  table := (parentIngest (parentBlobs parent) ([], [])).2
                  map := (parentIngest (parentBlobs parent) ([], [])).1
                  csz := none
                  cfg := cd.map (fun d => d.meta)
                  tarfs := ctx.tarfs_conversion
                  fsv := .v6 } from rfl] at hml
              rw [hml] at h
              injection h with h
              subst h
              exact Or.inr (Or.inr (Or.inr (Or.inr (Or.inr (Or.inr
                (Or.inr rfl))))))
            | ok st =>
              rw [show (initState ctx parent cd) =
                { tree := parent.map (fun p => p.tree)
                  table := (parentIngest (parentBlobs parent) ([], [])).2
                  map := (parentIngest (parentBlobs parent) ([], [])).1
                  csz := none
                  cfg := cd.map (fun d => d.meta)
                  tarfs := ctx.tarfs_conversion
                  fsv := .v6 } from rfl] at hml
              rw [hml] at h
              simp only [] at h
              cases hst : st.tarfs with
              | false =>
                rw [hst] at h
                simp only [Bool.false_eq_true, if_false] at h
                unfold finalizeMerge at h
                cases htr : st.tree with
                | none =>
                  rw [htr] at h
                  injection h with h
                  exact Or.inl h.symm
                | some t => rw [htr] at h; exact Except.noConfusion h
              | true =>
                rw [hst] at h
                simp only [if_true] at h
                by_cases hp : 0 < (parentBlobs parent).length
                · rw [if_pos hp] at h
                  injection h with h
                  exact Or.inr (Or.inr (Or.inr (Or.inr (Or.inr
                    (Or.inl h.symm)))))
                · rw [if_neg hp] at h
                  by_cases hd : !(dictIds cd).isEmpty
                  · rw [if_pos hd] at h
                    injection h with h
                    exact Or.inr (Or.inr (Or.inr (Or.inr (Or.inr (Or.inr
                      (Or.inl h.symm))))))
                  · rw [if_neg hd] at h
                    unfold finalizeMerge at h
                    cases htr : st.tree with
                    | none =>
                      rw [htr] at h
                      injection h with h
                      exact Or.inl h.symm
                    | some t => rw [htr] at h; exact Except.noConfusion h

theorem mergeM_no_blobConstraint {ctx : BuildContextM}
    {parent : Option RafsSuperM} {sources : List SourceM}
    {bd : Option (List String)} {bs : Option (List Nat)}
    {btd : Option (List String)} {bts : Option (List Nat)}
    {cd : Option RafsSuperM}
    (hcount : ∀ s ∈ sources, countNonDict (dictIds cd) s.rs.blobs ≤ 1) :
    mergeM ctx parent sources bd bs btd bts cd ≠ .error .blobConstraint := by
  intro h
  rcases mergeM_error_inv h with h' | h' | h' | h' | h' | h' | h' | h' <;>
    first
      | cases h'
      | exact mergeLayers_no_blobConstraint hcount h'

theorem mergeM_not_hexDecode {ctx : BuildContextM}
    {parent : Option RafsSuperM} {sources : List SourceM}
    {bs : Option (List Nat)} {bts : Option (List Nat)}
    {cd : Option RafsSuperM} :
    mergeM ctx parent sources none bs none bts cd ≠ .error .hexDecode := by
  intro h
  rcases mergeM_error_inv h with h' | h' | h' | h' | h' | h' | h' | h' <;>
    first
      | cases h'
      | exact mergeLayers_not_hexDecode h'

theorem stTreeNodes_some {st : MergeState} {t : Tree} (h : st.tree = some t) :
    stTreeNodes st = t.nodes := by
  unfold stTreeNodes
  rw [h]

theorem initState_nodes (ctx : BuildContextM) (parent : Option RafsSuperM)
    (cd : Option RafsSuperM) :
    stTreeNodes (initState ctx parent cd) = parentNodes parent := by
  cases parent <;> rfl

theorem initState_table_length (ctx : BuildContextM)
    (parent : Option RafsSuperM) (cd : Option RafsSuperM) :
    (initState ctx parent cd).table.length = (parentBlobs parent).length := by
  show ((parentIngest (parentBlobs parent) ([], [])).2).length = _
  rw [parentIngest_length]
  simp

theorem initState_mapBounded (ctx : BuildContextM)
    (parent : Option RafsSuperM) (cd : Option RafsSuperM) :
    MapBounded (initState ctx parent cd).map
      (initState ctx parent cd).table.length := by
  show MapBounded (parentIngest (parentBlobs parent) ([], [])).1
    ((parentIngest (parentBlobs parent) ([], [])).2).length
  refine parentIngest_bounded _ _ _ ?_
  intro k v hk
  simp [mapLookup] at hk

theorem initState_inv2 (ctx : BuildContextM) (parent : Option RafsSuperM)
    (cd : Option RafsSuperM)
    (hparent : ((parentBlobs parent).map (fun b => b.blob_id)).Nodup) :
    TableNodupInv (initState ctx parent cd).table
      (initState ctx parent cd).map := by
  show TableNodupInv (parentIngest (parentBlobs parent) ([], [])).2
    (parentIngest (parentBlobs parent) ([], [])).1
  refine parentIngest_inv2 _ _ _ hparent ?_ ?_
  · intro b _ bc hbc
    cases hbc
  · exact ⟨List.nodup_nil, fun bc hbc => absurd hbc (List.not_mem_nil bc)⟩

/-! ## Evaluation lemmas for the 65536-layer run -/

theorem c5_layers (m0 : BlobIdxMap) (t0 : List BlobContextM)
    (hlk : mapLookup m0 "aa" = none) :
    mergeLayers wCtx [] none none none none 65535 0
      { tree := some ⟨[c5PNode]⟩, table := t0, map := m0, csz := none,
        cfg := none, tarfs := false, fsv := .v6 } [c5Src] =
      .ok { tree := some ⟨[c5WNode, c5PNode]⟩, table := t0 ++ [c5Ctx],
            map := ("aa", t0.length) :: m0, csz := some 4096,
            cfg := some wCfg, tarfs := false, fsv := .v6 } := by
  simp [mergeLayers, processLayer, processBlobs, processBlob, chunkCheck,
    idMem, getDigestFromList, getSizeFromList, addIfVacant, hlk, walkNodes,
    walkNode, rewriteChunks, compatibleCfg, c5Src, wCfg, wBlob,
    applyIdAndOverrides, blobCtxFrom, mergeOveraly, shadowedBy, c5PNode,
    wNode, wCtx, c5WNode, c5Ctx]

theorem mergeM_eval {ctx : BuildContextM} {parent : Option RafsSuperM}
    {sources : List SourceM} {bd : Option (List String)}
    {bs : Option (List Nat)} {btd : Option (List String)}
    {bts : Option (List Nat)} {cd : Option RafsSuperM} {st : MergeState}
    {t : Tree}
    (hne : sources.isEmpty = false)
    (ha1 : arityOk bd sources.length = true)
    (ha2 : arityOk bs sources.length = true)
    (ha3 : arityOk btd sources.length = true)
    (ha4 : arityOk bts sources.length = true)
    (hml : mergeLayers ctx (dictIds cd) bd bs btd bts
      (parentBlobs parent).length 0 (initState ctx parent cd) sources =
      .ok st)
    (htarfs : st.tarfs = false) (htr : st.tree = some t) :
    mergeM ctx parent sources bd bs btd bts cd =
      .ok { blobTable := st.table, tree := t,
            chunk_size := st.csz.getD ctx.chunk_size, fsv := st.fsv } := by
  unfold mergeM
  rw [if_neg (by rw [hne]; exact Bool.noConfusion)]
  rw [if_neg (by rw [ha1]; exact Bool.noConfusion)]
  rw [if_neg (by rw [ha2]; exact Bool.noConfusion)]
  rw [if_neg (by rw [ha3]; exact Bool.noConfusion)]
  rw [if_neg (by rw [ha4]; exact Bool.noConfusion)]
  simp only []
  rw [show (initState ctx parent cd) =
    { tree := parent.map (fun p => p.tree)
      table := (parentIngest (parentBlobs parent) ([], [])).2
      map := (parentIngest (parentBlobs parent) ([], [])).1
      csz := none
      cfg := cd.map (fun d => d.meta)
      tarfs := ctx.tarfs_conversion
      fsv := .v6 } from rfl] at hml
  rw [hml]
  simp only [htarfs, Bool.false_eq_true, if_false]
  unfold finalizeMerge
  rw [htr]

/-! ## Claim theorems -/

/-- Claim C10: for every `bufs` argument, calling `DummyCache::read` with an
empty `bios` slice returns the invalid-argument error — it never returns 0
bytes copied and never touches the backend. -/
theorem dummy_read_empty_bios (m : CacheM) (bufs : List (List Nat)) :
    dummyRead m [] bufs = .error .invalidArgument := rfl

/-- Claim C6: on the zero-copy fast path of `DummyCache::read` (single io,
single buffer, `offset = 0`, buffer at least `decompress_size` bytes), a
non-`user_io` descriptor returns 0 with the buffers untouched, and a
`user_io` descriptor gets the decompressed chunk bytes written directly
into the front of `bufs[0]` with the returned count equal to
`decompress_size`.  The backend/codec/digest success conditions of
`read_raw_chunk` are the `hdata`/`hval` hypotheses. -/
theorem dummy_read_fast_path (m : CacheM) (b : BlobIoDescM) (buf : List Nat)
    (hoff : b.offset = 0) (hlen : b.chunk.d_size ≤ buf.length)
    (hdata : b.chunk.data.length = b.chunk.d_size)
    (hval : m.validate = true → m.digestOf b.chunk.data = b.chunk.block_id) :
    (b.user_io = false → dummyRead m [b] [buf] = .ok ([buf], 0)) ∧
    (b.user_io = true → dummyRead m [b] [buf] =
      .ok ([b.chunk.data ++ buf.drop b.chunk.d_size], b.chunk.d_size)) := by
  have hraw : readRawChunk m b.chunk = .ok b.chunk.data := by
    unfold readRawChunk
    rw [if_neg (by omega : ¬b.chunk.data.length ≠ b.chunk.d_size)]
    rw [if_neg ?_]
    rintro ⟨hv, hne⟩
    exact hne (hval hv)
  have hcond : ([buf] : List (List Nat)).length = 1 ∧
      ([b] : List BlobIoDescM).length = 1 ∧ b.offset = 0 ∧
      b.chunk.d_size ≤ (([buf] : List (List Nat)).headD []).length :=
    ⟨rfl, rfl, hoff, by simpa using hlen⟩
  constructor
  · intro hu
    unfold dummyRead
    simp only []
    rw [if_pos hcond, hu]
    rfl
  · intro hu
    unfold dummyRead
    simp only []
    rw [if_pos hcond, hu]
    simp only [Bool.not_true, Bool.false_eq_true, if_false]
    rw [hraw]
    rfl

/-- Claim C7: with validation enabled, `process_raw_chunk` never returns
chunk bytes whose digest differs from `cki.block_id`; whenever the bytes
the decompression stage produces have the right length but a wrong digest,
it fails with the digest-mismatch error instead of returning them. -/
theorem process_raw_chunk_validates (m : CacheM) (cki : ChunkModel)
    (nd : Bool) :
    (∀ raw out, processRawChunk m cki raw nd true = .ok out →
      m.digestOf out.1 = cki.block_id) ∧
    (∀ raw bytes, producedChunk m raw nd = some bytes →
      bytes.length = cki.d_size → m.digestOf bytes ≠ cki.block_id →
      processRawChunk m cki raw nd true = .error .digestMismatch) := by
  constructor
  · intro raw out h
    unfold processRawChunk at h
    cases hp : producedChunk m raw nd with
    | none => rw [hp] at h; exact Except.noConfusion h
    | some chunk =>
      rw [hp] at h
      simp only [] at h
      by_cases h1 : chunk.length ≠ cki.d_size
      · rw [if_pos h1] at h; exact Except.noConfusion h
      · rw [if_neg h1] at h
        by_cases h2 : m.digestOf chunk = cki.block_id
        · rw [if_neg (by simp [h2])] at h
          injection h with h
          subst h
          exact h2
        · rw [if_pos ⟨by trivial, h2⟩] at h
          exact Except.noConfusion h
  · intro raw bytes hp hlength hne
    unfold processRawChunk
    rw [hp]
    simp only []
    rw [if_neg (by omega : ¬bytes.length ≠ cki.d_size)]
    rw [if_pos ⟨by trivial, hne⟩]

/-- Witness for C6 at a concrete chunk. -/
theorem dummy_read_fast_path_witness :
    dummyRead { digestOf := fun _ => [], validate := false,
                decompress := fun _ => none }
      [{ user_io := true, offset := 0, size := 1,
         chunk := { d_size := 1, block_id := [], data := [9] } }]
      [[0, 0]] = .ok ([[9, 0]], 1) :=
  (dummy_read_fast_path
    { digestOf := fun _ => [], validate := false, decompress := fun _ => none }
    { user_io := true, offset := 0, size := 1,
      chunk := { d_size := 1, block_id := [], data := [9] } }
    [0, 0] rfl (by decide) rfl (fun hv => Bool.noConfusion hv)).2 rfl

/-- Witness for C7 at a concrete corrupted chunk. -/
theorem process_raw_chunk_validates_witness :
    processRawChunk { digestOf := fun l => l, validate := true,
                      decompress := fun _ => none }
      { d_size := 1, block_id := [0], data := [] } [5] false true =
      .error .digestMismatch :=
  (process_raw_chunk_validates
    { digestOf := fun l => l, validate := true, decompress := fun _ => none }
    { d_size := 1, block_id := [0], data := [] } false).2 [5] [5] rfl rfl
    (by decide)

/-- Claim C1: on every successful merge, every chunk of every output node
references a position strictly below the size of the merged blob table
(the parent bootstrap is assumed well-formed: the external
`RafsSuper::load_from_file` yields chunk references within its own blob
table; source-layer chunks are checked by the merge itself). -/
theorem merge_chunk_blob_index_bounded {ctx : BuildContextM}
    {parent : Option RafsSuperM} {sources : List SourceM}
    {bd : Option (List String)} {bs : Option (List Nat)}
    {btd : Option (List String)} {bts : Option (List Nat)}
    {cd : Option RafsSuperM} {out : MergeOutput}
    (hok : mergeM ctx parent sources bd bs btd bts cd = .ok out)
    (hparent : ∀ nd ∈ parentNodes parent, ∀ c ∈ nd.chunks,
      c.blob_index < (parentBlobs parent).length) :
    ∀ nd ∈ out.tree.nodes, ∀ c ∈ nd.chunks,
      c.blob_index < out.blobTable.length := by
  obtain ⟨st, hml, hbt, htr, -, -⟩ := mergeM_ok_inv hok
  have h0tree : NodesBounded (stTreeNodes (initState ctx parent cd))
      (initState ctx parent cd).table.length := by
    intro nd hnd c hc
    rw [initState_table_length]
    rw [initState_nodes] at hnd
    exact hparent nd hnd c hc
  obtain ⟨-, htree'⟩ :=
    mergeLayers_StInv hml (initState_mapBounded ctx parent cd) h0tree
  intro nd hnd c hc
  rw [hbt]
  refine htree' nd ?_ c hc
  rw [stTreeNodes_some htr]
  exact hnd

/-- Witness for C1 at a one-layer merge, instantiated at its node and
chunk. -/
theorem merge_chunk_blob_index_bounded_witness :
    (⟨0⟩ : ChunkRef).blob_index < wOut.blobTable.length :=
  @merge_chunk_blob_index_bounded wCtx none [wSrc] none none none none none
    wOut (by decide) (fun nd hnd => absurd hnd (List.not_mem_nil nd))
    wWalked (by decide) ⟨0⟩ (by decide)

/-- Counterexample for C2: two layers with distinct original blob ids
`"aa"`/`"bb"` and the same override digest produce a successful merge whose
blob table holds the rewritten id `hex0` twice — the vacancy check of
`blob_idx_map` dedups on the original id, not on the rewritten one. -/
theorem merge_rewritten_ids_collide :
    (mergeM wCtx none [c2SrcA, c2SrcB] (some [hex0, hex0]) none none none
      none).map (fun o => o.blobTable.map (fun c => c.blob_id)) =
      .ok [hex0, hex0] := by decide

/-- Claim C2 (amended): the merged blob table has no duplicate `blob_id`
provided ids are not rewritten — no override digests are supplied and the
runtime treats blobs as accessible (so `blob_id` is kept as loaded) — and
the parent's blob ids are themselves distinct.  With override digests the
stored ids can collide (see the counterexample). -/
theorem merge_blob_table_nodup {ctx : BuildContextM}
    {parent : Option RafsSuperM} {sources : List SourceM}
    {bs : Option (List Nat)} {btd : Option (List String)}
    {bts : Option (List Nat)} {cd : Option RafsSuperM} {out : MergeOutput}
    (hok : mergeM ctx parent sources none bs btd bts cd = .ok out)
    (haccess : ctx.blob_accessible = true)
    (hparent : ((parentBlobs parent).map (fun b => b.blob_id)).Nodup) :
    (out.blobTable.map (fun c => c.blob_id)).Nodup := by
  obtain ⟨st, hml, hbt, -, -, -⟩ := mergeM_ok_inv hok
  have h0 := initState_inv2 ctx parent cd hparent
  have h1 := mergeLayers_inv2 haccess hml h0
  rw [hbt]
  exact h1.1

/-- Witness for C2 (amended) at a one-layer merge. -/
theorem merge_blob_table_nodup_witness :
    (wOut.blobTable.map (fun c => c.blob_id)).Nodup :=
  @merge_blob_table_nodup wCtx none [wSrc] none none none none wOut
    (by decide) rfl List.nodup_nil

/-- Claim C3: a source layer referencing two or more non-dictionary blobs
makes the merge fail; when every layer has at most one such blob the merge
never raises the multiple-data-blobs (`BlobConstraint`) error; and at the
blob loop the failure raised on the second non-dictionary blob (absent
other errors in that loop: equal chunk sizes, no override arrays) is
exactly `BlobConstraint`. -/
theorem merge_multiple_data_blobs (ctx : BuildContextM)
    (parent : Option RafsSuperM) (sources : List SourceM)
    (bd : Option (List String)) (bs : Option (List Nat))
    (btd : Option (List String)) (bts : Option (List Nat))
    (cd : Option RafsSuperM) :
    ((∃ s ∈ sources, 2 ≤ countNonDict (dictIds cd) s.rs.blobs) →
      exceptIsOk (mergeM ctx parent sources bd bs btd bts cd) = false) ∧
    ((∀ s ∈ sources, countNonDict (dictIds cd) s.rs.blobs ≤ 1) →
      mergeM ctx parent sources bd bs btd bts cd ≠ .error .blobConstraint) ∧
    (∀ (dict : List String) (blobs : List BlobDesc) (st : LayerBlobState)
      (cs i : Nat) (pid : String) (tf : Bool),
      st.added = false → 2 ≤ countNonDict dict blobs →
      (∀ b ∈ blobs, b.chunk_size = cs) → st.csz = none →
      processBlobs ctx dict none none none none i pid tf st blobs =
        .error .blobConstraint) := by
  refine ⟨?_, ?_, ?_⟩
  · rintro ⟨s, hs, h2⟩
    cases hres : mergeM ctx parent sources bd bs btd bts cd with
    | error e => rfl
    | ok out =>
      obtain ⟨st, hml, -, -, -, -⟩ := mergeM_ok_inv hres
      have := mergeLayers_ok_count hml s hs
      omega
  · exact fun hcount => mergeM_no_blobConstraint hcount
  · intro dict blobs st cs i pid tf hadd hcount hsz hcsz
    exact processBlobs_bc hadd hcount hsz (Or.inl hcsz)

/-- Witness for C3: a two-blob layer makes the merge fail. -/
theorem merge_multiple_data_blobs_witness :
    exceptIsOk (mergeM wCtx none [c3Src] none none none none none) = false :=
  (merge_multiple_data_blobs wCtx none [c3Src] none none none none none).1
    ⟨c3Src, List.mem_singleton.mpr rfl, by decide⟩

/-- Claim C4: two source blobs with different chunk sizes make the merge
fail, and on success the output's `chunk_size` equals every source blob's
chunk size (hence the common value). -/
theorem merge_chunk_size_uniform (ctx : BuildContextM)
    (parent : Option RafsSuperM) (sources : List SourceM)
    (bd : Option (List String)) (bs : Option (List Nat))
    (btd : Option (List String)) (bts : Option (List Nat))
    (cd : Option RafsSuperM) :
    ((∃ s1 ∈ sources, ∃ b1 ∈ s1.rs.blobs, ∃ s2 ∈ sources,
        ∃ b2 ∈ s2.rs.blobs, b1.chunk_size ≠ b2.chunk_size) →
      exceptIsOk (mergeM ctx parent sources bd bs btd bts cd) = false) ∧
    (∀ out, mergeM ctx parent sources bd bs btd bts cd = .ok out →
      ∀ s ∈ sources, ∀ b ∈ s.rs.blobs, out.chunk_size = b.chunk_size) := by
  have hpart2 : ∀ out, mergeM ctx parent sources bd bs btd bts cd = .ok out →
      ∀ s ∈ sources, ∀ b ∈ s.rs.blobs, out.chunk_size = b.chunk_size := by
    intro out hok s hs b hb
    obtain ⟨st, hml, -, -, hcsz, -⟩ := mergeM_ok_inv hok
    have := (mergeLayers_csz hml).2 s hs b hb
    rw [hcsz, this]
    rfl
  refine ⟨?_, hpart2⟩
  rintro ⟨s1, hs1, b1, hb1, s2, hs2, b2, hb2, hne⟩
  cases hres : mergeM ctx parent sources bd bs btd bts cd with
  | error e => rfl
  | ok out =>
    have h1 := hpart2 out hres s1 hs1 b1 hb1
    have h2 := hpart2 out hres s2 hs2 b2 hb2
    exact absurd (h1.symm.trans h2) hne

/-- Witness for C4 at a one-layer merge. -/
theorem merge_chunk_size_uniform_witness :
    wOut.chunk_size = wBlob.chunk_size :=
  (merge_chunk_size_uniform wCtx none [wSrc] none none none none none).2
    wOut (by decide) wSrc (List.mem_singleton.mpr rfl)
    wBlob (List.mem_singleton.mpr rfl)

/-- Counterexample for C8: a TARFS merge with a supplied chunk dictionary
that contributes no blobs succeeds — the guard checks the collected blob
id set, not whether `--chunk-dict` was given. -/
theorem merge_tarfs_empty_dict_succeeds :
    exceptIsOk (mergeM wCtx none [c8Src] none none none none (some c8Dict)) =
      true := by decide

/-- Claim C8 (amended): when the effective configuration (the chunk
dictionary's when supplied, otherwise the first source layer's) is in
TARFS mode, the merge fails whenever the parent contributes at least one
blob or the chunk dictionary contributes at least one blob. -/
theorem merge_tarfs_guard (ctx : BuildContextM) (parent : Option RafsSuperM)
    (s0 : SourceM) (rest : List SourceM) (bd : Option (List String))
    (bs : Option (List Nat)) (btd : Option (List String))
    (bts : Option (List Nat)) (cd : Option RafsSuperM)
    (htf : ((cd.map (fun d => d.meta)).getD s0.rs.meta).is_tarfs_mode = true)
    (hconflict : parentBlobs parent ≠ [] ∨ dictIds cd ≠ []) :
    exceptIsOk (mergeM ctx parent (s0 :: rest) bd bs btd bts cd) = false := by
  cases hres : mergeM ctx parent (s0 :: rest) bd bs btd bts cd with
  | error e => rfl
  | ok out =>
    obtain ⟨st, hml, -, -, -, hguard⟩ := mergeM_ok_inv hres
    have hst : st.tarfs = true := mergeLayers_tarfs_first hml htf
    obtain ⟨hp0, hd0⟩ := hguard hst
    rcases hconflict with hpar | hdict
    · exact absurd (List.length_eq_zero.mp hp0) hpar
    · exact absurd hd0 hdict

/-- Witness for C8 (amended): a TARFS merge with a one-blob dictionary
fails. -/
theorem merge_tarfs_guard_witness :
    exceptIsOk (mergeM wCtx none [c8Src] none none none none
      (some c8DictOne)) = false :=
  merge_tarfs_guard wCtx none c8Src [] none none none none (some c8DictOne)
    rfl (Or.inr (by decide))

/-- Counterexample for C9: a supplied `blob_digests` entry that is the
empty string makes the merge fail with the hex-decode error — it is not
treated as an omitted override. -/
theorem merge_empty_digest_entry_fails :
    mergeM wCtx none [wSrc] (some [""]) none none none none =
      .error .hexDecode := by decide

/-- Claim C9 (amended): an empty `blob_digests` entry at a position whose
layer contributes a new (non-dictionary) blob makes the merge fail —
`from_hex` rejects the empty string — while overrides are genuinely
omitted only when the whole array is `None`, in which case no hex-decode
error can arise. -/
theorem merge_empty_digest_entry (ctx : BuildContextM)
    (parent : Option RafsSuperM) (sources : List SourceM)
    (cd : Option RafsSuperM) (ds : List String) (bs : Option (List Nat))
    (btd : Option (List String)) (bts : Option (List Nat)) :
    ((∃ i, ∃ hi : i < sources.length, ds[i]? = some "" ∧
        1 ≤ countNonDict (dictIds cd) (sources.get ⟨i, hi⟩).rs.blobs) →
      exceptIsOk (mergeM ctx parent sources (some ds) bs btd bts cd) =
        false) ∧
    (mergeM ctx parent sources none bs none bts cd ≠ .error .hexDecode) := by
  constructor
  · rintro ⟨i, hi, hds, hcount⟩
    cases hres : mergeM ctx parent sources (some ds) bs btd bts cd with
    | error e => rfl
    | ok out =>
      obtain ⟨st, hml, -, -, -, -⟩ := mergeM_ok_inv hres
      obtain ⟨od, hod⟩ := mergeLayers_ok_digest hml i hi hcount
      rw [Nat.zero_add] at hod
      have hfx : fromHex32 "" = none := rfl
      simp only [getDigestFromList, hds, hfx] at hod
      exact Except.noConfusion hod
  · exact mergeM_not_hexDecode

/-- Witness for C9 (amended): an empty digest entry fails a one-layer
merge. -/
theorem merge_empty_digest_entry_witness :
    exceptIsOk (mergeM wCtx none [wSrc] (some [""]) none none none none) =
      false :=
  (merge_empty_digest_entry wCtx none [wSrc] none [""] none none none).1
    ⟨0, by decide, rfl, by decide⟩

/-- Counterexample for C5: a parent bootstrap contributing 65535 blobs
plus one source layer merges successfully — 65536 layers in total, so the
merge does not keep `layer_count ≤ 65535`; the guard only keeps every
`layer_idx` (here 65535) within `u16`. -/
theorem merge_layer_count_65536 :
    exceptIsOk (mergeM wCtx (some c5Parent) [c5Src] none none none none
      none) = true ∧
    (parentBlobs (some c5Parent)).length +
      ([c5Src] : List SourceM).length = 65536 := by
  have hplen : (parentBlobs (some c5Parent)).length = 65535 := by
    rw [show parentBlobs (some c5Parent) = List.replicate 65535 c5Blob
      from rfl]
    rw [List.length_replicate]
  constructor
  · have hlk : mapLookup
        (parentIngest (parentBlobs (some c5Parent)) ([], [])).1 "aa" =
        none := by
      rw [parentIngest_lookup_ne]
      · rfl
      · intro b hb
        rw [show parentBlobs (some c5Parent) =
          List.replicate 65535 c5Blob from rfl] at hb
        rw [List.eq_of_mem_replicate hb]
        decide
    have hml := c5_layers
      (parentIngest (parentBlobs (some c5Parent)) ([], [])).1
      (parentIngest (parentBlobs (some c5Parent)) ([], [])).2 hlk
    have hml' : mergeLayers wCtx (dictIds none) none none none none
        (parentBlobs (some c5Parent)).length 0
        (initState wCtx (some c5Parent) none) [c5Src] = .ok c5St := by
      rw [hplen]
      exact hml
    have heval := @mergeM_eval wCtx (some c5Parent) [c5Src] none none none
      none none c5St ⟨[c5WNode, c5PNode]⟩ rfl rfl rfl rfl rfl hml' rfl rfl
    rw [heval]
    rfl
  · rw [hplen]
    rfl

/-- Claim C5 (amended): on success every output node is a parent node or
carries `layer_idx = parent_layers + i` for its source position
`i < |sources|` with `parent_layers + i ≤ 65535`; and whenever some layer
`i` (with a non-empty tree, as every real bootstrap tree has a root) has
`parent_layers + i` not fitting in `u16`, the merge fails.  The bound kept
is on `layer_idx`, not on the number of layers: 65536 layers can succeed
(see the counterexample). -/
theorem merge_layer_idx (ctx : BuildContextM) (parent : Option RafsSuperM)
    (sources : List SourceM) (bd : Option (List String))
    (bs : Option (List Nat)) (btd : Option (List String))
    (bts : Option (List Nat)) (cd : Option RafsSuperM) :
    (∀ out, mergeM ctx parent sources bd bs btd bts cd = .ok out →
      ∀ nd ∈ out.tree.nodes, nd ∈ parentNodes parent ∨
        ∃ i, i < sources.length ∧
          (parentBlobs parent).length + i ≤ 65535 ∧
          nd.layer_idx = (parentBlobs parent).length + i) ∧
    (∀ i, ∀ hi : i < sources.length,
      (sources.get ⟨i, hi⟩).rs.tree.nodes ≠ [] →
      65535 < (parentBlobs parent).length + i →
      exceptIsOk (mergeM ctx parent sources bd bs btd bts cd) = false) := by
  constructor
  · intro out hok nd hnd
    obtain ⟨st, hml, -, htr, -, -⟩ := mergeM_ok_inv hok
    have h0 : ∀ nd ∈ stTreeNodes (initState ctx parent cd),
        nd ∈ parentNodes parent ∨
        ∃ j, j < 0 ∧ (parentBlobs parent).length + j ≤ 65535 ∧
          nd.layer_idx = (parentBlobs parent).length + j := by
      intro nd hnd
      rw [initState_nodes] at hnd
      exact Or.inl hnd
    have hres := mergeLayers_layerIdx hml h0 nd
      (by rw [stTreeNodes_some htr]; exact hnd)
    rcases hres with hb | ⟨j, hj, hle, hidx⟩
    · exact Or.inl hb
    · exact Or.inr ⟨j, by omega, hle, hidx⟩
  · intro i hi hne hbig
    cases hres : mergeM ctx parent sources bd bs btd bts cd with
    | error e => rfl
    | ok out =>
      obtain ⟨st, hml, -, -, -, -⟩ := mergeM_ok_inv hres
      have := mergeLayers_ok_bound hml i hi hne
      omega

/-- Witness for C5 (amended) at a one-layer merge, instantiated at its
node. -/
theorem merge_layer_idx_witness :
    wWalked ∈ parentNodes none ∨
      ∃ i, i < ([wSrc] : List SourceM).length ∧
        (parentBlobs none).length + i ≤ 65535 ∧
        wWalked.layer_idx = (parentBlobs none).length + i :=
  (merge_layer_idx wCtx none [wSrc] none none none none none).1 wOut
    (by decide) wWalked (by decide)

end Nydus
